import Mathlib

/-!
Verification of the OneFormer matching and loss core
(`src/transformers/models/oneformer/modeling_oneformer.py`).

The numeric code is embedded over `ℝ` (floating point modelled as exact
reals); purely structural code (index manipulation, enumeration of
assignments, top-k selection, bilinear grid sampling) is embedded
generically over a linear ordered field so that it stays executable on `ℚ`.
-/

/-- Sum of pairwise products over the zipped prefix of two lists; this is the
`torch.einsum("nc,mc->nm", a, b)` entry for one row pair. -/
def dotList (a b : List ℝ) : ℝ :=
  ((a.zip b).map (fun p => p.1 * p.2)).sum

/-- Logistic sigmoid, `torch.sigmoid` / the activation implicit in
`binary_cross_entropy_with_logits`. -/
noncomputable def sigmoid (x : ℝ) : ℝ :=
  1 / (1 + Real.exp (-x))

/-- Entry `i` of `softmax(l)` for one row `l` of logits, as in
`pred_probs = pred_probs.softmax(-1)` in `OneFormerHungarianMatcher.forward`. -/
noncomputable def softmaxAt (l : List ℝ) (i : ℕ) : ℝ :=
  Real.exp (l.getD i 0) / ((l.map Real.exp).sum)

/-- Elementwise binary cross entropy with logits,
`F.binary_cross_entropy_with_logits(x, y, reduction="none")` at one element. -/
noncomputable def bceWithLogits (x y : ℝ) : ℝ :=
  -(y * Real.log (sigmoid x) + (1 - y) * Real.log (1 - sigmoid x))

/-- `dice_loss` (modeling_oneformer.py lines 114-141): sigmoid the inputs,
per mask compute `1 - (2*(probs*labels).sum + 1)/(probs.sum + labels.sum + 1)`,
sum over masks and divide by `num_masks`. Each list element is one
(already flattened) mask row. -/
noncomputable def dice_loss (inputs labels : List (List ℝ)) (num_masks : ℝ) : ℝ :=
  (((inputs.zip labels).map (fun p =>
      let probs := p.1.map sigmoid
      1 - (2 * dotList probs p.2 + 1) / (probs.sum + p.2.sum + 1))).sum) / num_masks

/-- `sigmoid_ce_loss` (lines 144-165): elementwise BCE-with-logits, mean over
dimension 1 (the points of each mask), sum over masks, divide by `num_masks`. -/
noncomputable def sigmoid_ce_loss (inputs labels : List (List ℝ)) (num_masks : ℝ) : ℝ :=
  (((inputs.zip labels).map (fun p =>
      (((p.1.zip p.2).map (fun q => bceWithLogits q.1 q.2)).sum) / (p.1.length : ℝ))).sum)
    / num_masks

/-- `pair_wise_dice_loss` (lines 169-188): the `(Q,T)` matrix with entry
`1 - (2*einsum("nc,mc->nm", sigmoid inputs, labels) + 1) /
(sigmoid(inputs).sum(-1)[:,None] + labels.sum(-1)[None,:] + 1)`. -/
noncomputable def pair_wise_dice_loss (inputs labels : List (List ℝ)) : List (List ℝ) :=
  inputs.map (fun irow =>
    labels.map (fun lrow =>
      let probs := irow.map sigmoid
      1 - (2 * dotList probs lrow + 1) / (probs.sum + lrow.sum + 1)))

/-- `pair_wise_sigmoid_ce_loss` (lines 192-216): `pos = BCE(x, 1)`,
`neg = BCE(x, 0)`, entry `(q,t) = (einsum(pos,labels) + einsum(neg, 1-labels)) / hw`
where `hw = inputs.shape[1]`. -/
noncomputable def pair_wise_sigmoid_ce_loss (inputs labels : List (List ℝ)) : List (List ℝ) :=
  let hw := (inputs.headD []).length
  inputs.map (fun irow =>
    let pos := irow.map (fun x => bceWithLogits x 1)
    let neg := irow.map (fun x => bceWithLogits x 0)
    labels.map (fun lrow =>
      (dotList pos lrow + dotList neg (lrow.map (fun y => 1 - y))) / (hw : ℝ)))

/-- Direct (unoptimized) pairwise sigmoid cross entropy, written from the
definition of `sigmoid_ce_loss` applied to each `(q,t)` pair: the mean over
the points of elementwise BCE-with-logits between row `q` of `inputs` and
row `t` of `labels`. Comparison target for the refinement claim. -/
noncomputable def direct_pair_wise_sigmoid_ce_loss (inputs labels : List (List ℝ)) :
    List (List ℝ) :=
  let hw := (inputs.headD []).length
  inputs.map (fun irow =>
    labels.map (fun lrow =>
      (((irow.zip lrow).map (fun q => bceWithLogits q.1 q.2)).sum) / (hw : ℝ)))

section GridSample

variable {α : Type} [LinearOrderedField α] [FloorRing α]

/-- Pixel lookup with the `padding_mode="zeros"` convention of
`F.grid_sample`: out-of-range indices read as `0`. `f y x` is the value of
pixel `(row y, column x)` of an `H × W` map. -/
def atPix (H W : ℕ) (f : ℕ → ℕ → α) (y x : ℤ) : α :=
  if 0 ≤ y ∧ y < (H : ℤ) ∧ 0 ≤ x ∧ x < (W : ℤ) then f y.toNat x.toNat else 0

/-- One output value of `F.grid_sample(input, grid, mode="bilinear",
padding_mode="zeros", align_corners=False)` for an `H × W` single-channel
map: unnormalize the grid coordinate `g ∈ [-1,1]` to pixel space via
`((g+1)*size - 1)/2`, then bilinearly interpolate the four neighbours with
zero padding. -/
def gridSampleAt (H W : ℕ) (f : ℕ → ℕ → α) (gx gy : α) : α :=
  let ix := ((gx + 1) * (W : α) - 1) / 2
  let iy := ((gy + 1) * (H : α) - 1) / 2
  let x0 : ℤ := ⌊ix⌋
  let y0 : ℤ := ⌊iy⌋
  let wx1 := ix - (x0 : α)
  let wy1 := iy - (y0 : α)
  (1 - wy1) * (1 - wx1) * atPix H W f y0 x0 +
    (1 - wy1) * wx1 * atPix H W f y0 (x0 + 1) +
    wy1 * (1 - wx1) * atPix H W f (y0 + 1) x0 +
    wy1 * wx1 * atPix H W f (y0 + 1) (x0 + 1)

/-- `point_sample` (lines 236-257) at a single `[0,1]²` coordinate
`(cx, cy)`: calls `grid_sample` at `2*coords - 1`. -/
def pointSampleAt (H W : ℕ) (f : ℕ → ℕ → α) (cx cy : α) : α :=
  gridSampleAt H W f (2 * cx - 1) (2 * cy - 1)

end GridSample

section Assignment

variable {β : Type} [LinearOrderedAddCommMonoid β]

/-- All length-`k` sequences of distinct indices drawn from `{0, ..., n-1}`:
the permutations of every size-`k` sublist of `range n`. -/
def injSeqs (n k : ℕ) : List (List ℕ) :=
  ((List.range n).sublistsLen k).flatMap List.permutations

/-- All one-to-one assignments of size `min Q T` between `Q` predictions and
`T` targets, as lists of `(prediction, target)` index pairs. -/
def allAssignments (Q T : ℕ) : List (List (ℕ × ℕ)) :=
  (injSeqs Q (min Q T)).flatMap
    (fun qs => (injSeqs T (min Q T)).map (fun ts => qs.zip ts))

/-- Total cost of an assignment `A` under the cost matrix `C`. -/
def matchCost (C : ℕ → ℕ → β) (A : List (ℕ × ℕ)) : β :=
  (A.map (fun p => C p.1 p.2)).sum

/-- `A` is a one-to-one assignment of size `min Q T` between `Q` predictions
and `T` targets: each prediction index and each target index appears at most
once, and all indices are in range. -/
def isAssignment (Q T : ℕ) (A : List (ℕ × ℕ)) : Prop :=
  A.length = min Q T ∧ (A.map Prod.fst).Nodup ∧ (A.map Prod.snd).Nodup ∧
    ∀ p ∈ A, p.1 < Q ∧ p.2 < T

/-- Modelled from the spec: `scipy.optimize.linear_sum_assignment`, the exact
minimum-cost bipartite assignment solver called by
`OneFormerHungarianMatcher.forward` (the solver itself is an external scipy
routine, not part of this repository; the spec requires "an exact
polynomial-time assignment algorithm", i.e. any exact minimizer over all
one-to-one assignments of size `min Q T`). Modelled by brute-force
minimization over the full enumeration of such assignments. -/
def linear_sum_assignment (C : ℕ → ℕ → β) (Q T : ℕ) : List (ℕ × ℕ) :=
  ((allAssignments Q T).argmin (matchCost C)).getD []

/-- A `<`-sorted list of naturals bounded by `n` is a sublist of `range n`. -/
theorem sorted_lt_sublist_range {l : List ℕ} (hs : List.Sorted (· < ·) l) {n : ℕ}
    (hb : ∀ x ∈ l, x < n) : l.Sublist (List.range n) := by
  induction l using List.reverseRecOn generalizing n with
  | nil => exact List.nil_sublist _
  | append_singleton l a ih =>
    have hsl : List.Sorted (· < ·) l := by
      rw [List.Sorted, List.pairwise_append] at hs
      exact hs.1
    have hla : ∀ x ∈ l, x < a := by
      rw [List.Sorted, List.pairwise_append] at hs
      intro x hx
      exact hs.2.2 x hx a (List.mem_singleton_self a)
    have ha : a < n := hb a (List.mem_append_right l (List.mem_singleton_self a))
    have h1 : l.Sublist (List.range a) := ih hsl hla
    have h2 : (l ++ [a]).Sublist (List.range a ++ [a]) :=
      List.Sublist.append h1 (List.Sublist.refl [a])
    have h3 : (List.range a ++ [a]) = List.range (a + 1) := (List.range_succ a).symm
    have h4 : (List.range (a + 1)).Sublist (List.range n) := List.range_sublist.2 ha
    exact (h3 ▸ h2).trans h4

/-- Membership in `injSeqs`: exactly the length-`k` duplicate-free lists of
indices below `n`. -/
theorem mem_injSeqs {n k : ℕ} {l : List ℕ} :
    l ∈ injSeqs n k ↔ l.length = k ∧ l.Nodup ∧ ∀ x ∈ l, x < n := by
  unfold injSeqs
  rw [List.mem_flatMap]
  constructor
  · rintro ⟨s, hs, hl⟩
    rw [List.mem_sublistsLen] at hs
    rw [List.mem_permutations] at hl
    have hnd : s.Nodup := hs.1.nodup (List.nodup_range n)
    refine ⟨hl.length_eq.trans hs.2, hl.nodup_iff.2 hnd, ?_⟩
    intro x hx
    exact List.mem_range.1 (hs.1.subset (hl.subset hx))
  · rintro ⟨hlen, hnd, hb⟩
    refine ⟨List.insertionSort (· ≤ ·) l, ?_, ?_⟩
    · rw [List.mem_sublistsLen]
      have hperm : (List.insertionSort (· ≤ ·) l).Perm l := List.perm_insertionSort _ l
      have hsle : List.Sorted (· ≤ ·) (List.insertionSort (· ≤ ·) l) :=
        List.sorted_insertionSort _ l
      have hslt : List.Sorted (· < ·) (List.insertionSort (· ≤ ·) l) :=
        hsle.lt_of_le (hperm.nodup_iff.2 hnd)
      refine ⟨sorted_lt_sublist_range hslt ?_, hperm.length_eq.trans hlen⟩
      intro x hx
      exact hb x (hperm.subset hx)
    · exact List.mem_permutations.2 (List.perm_insertionSort (· ≤ ·) l).symm

/-- Membership in `allAssignments` is exactly `isAssignment`. -/
theorem mem_allAssignments {Q T : ℕ} {A : List (ℕ × ℕ)} :
    A ∈ allAssignments Q T ↔ isAssignment Q T A := by
  unfold allAssignments isAssignment
  rw [List.mem_flatMap]
  constructor
  · rintro ⟨qs, hqs, hA⟩
    rw [List.mem_map] at hA
    obtain ⟨ts, hts, rfl⟩ := hA
    rw [mem_injSeqs] at hqs hts
    have hql : qs.length = min Q T := hqs.1
    have htl : ts.length = min Q T := hts.1
    have hfst : (qs.zip ts).map Prod.fst = qs :=
      List.map_fst_zip qs ts (by rw [hql, htl])
    have hsnd : (qs.zip ts).map Prod.snd = ts :=
      List.map_snd_zip qs ts (by rw [hql, htl])
    refine ⟨?_, ?_, ?_, ?_⟩
    · rw [List.length_zip, hql, htl, min_self]
    · rw [hfst]; exact hqs.2.1
    · rw [hsnd]; exact hts.2.1
    · intro p hp
      obtain ⟨h1, h2⟩ := List.of_mem_zip hp
      exact ⟨hqs.2.2 _ h1, hts.2.2 _ h2⟩
  · rintro ⟨hlen, hnf, hns, hb⟩
    refine ⟨A.map Prod.fst, ?_, ?_⟩
    · rw [mem_injSeqs]
      exact ⟨by rw [List.length_map, hlen], hnf,
        fun x hx => by
          obtain ⟨p, hp, rfl⟩ := List.mem_map.1 hx
          exact (hb p hp).1⟩
    · rw [List.mem_map]
      refine ⟨A.map Prod.snd, ?_, ?_⟩
      · rw [mem_injSeqs]
        exact ⟨by rw [List.length_map, hlen], hns,
          fun x hx => by
            obtain ⟨p, hp, rfl⟩ := List.mem_map.1 hx
            exact (hb p hp).2⟩
      · have := List.zip_unzip A
        rwa [List.unzip_eq_map] at this

/-- The canonical assignment `[(0,0), (1,1), ...]` of size `min Q T` shows
`allAssignments` is never empty. -/
theorem allAssignments_ne_nil (Q T : ℕ) : allAssignments Q T ≠ [] := by
  have hmem : (List.range (min Q T)).zip (List.range (min Q T)) ∈ allAssignments Q T := by
    rw [mem_allAssignments]
    rw [isAssignment]
    refine ⟨by simp, ?_, ?_, ?_⟩
    · rw [List.map_fst_zip _ _ le_rfl]; exact List.nodup_range _
    · rw [List.map_snd_zip _ _ le_rfl]; exact List.nodup_range _
    · intro p hp
      obtain ⟨h1, h2⟩ := List.of_mem_zip hp
      rw [List.mem_range] at h1 h2
      exact ⟨lt_of_lt_of_le h1 (min_le_left _ _), lt_of_lt_of_le h2 (min_le_right _ _)⟩
  intro hnil
  rw [hnil] at hmem
  exact List.not_mem_nil _ hmem

/-- `linear_sum_assignment` returns a valid assignment. -/
theorem linear_sum_assignment_isAssignment (C : ℕ → ℕ → β) (Q T : ℕ) :
    isAssignment Q T (linear_sum_assignment C Q T) := by
  unfold linear_sum_assignment
  rcases ho : (allAssignments Q T).argmin (matchCost C) with _ | a
  · exact absurd (List.argmin_eq_none.1 ho) (allAssignments_ne_nil Q T)
  · exact mem_allAssignments.1 (List.argmin_mem ho)

/-- `linear_sum_assignment` minimizes the total cost over all one-to-one
assignments of size `min Q T`. -/
theorem linear_sum_assignment_min (C : ℕ → ℕ → β) (Q T : ℕ) {B : List (ℕ × ℕ)}
    (hB : isAssignment Q T B) :
    matchCost C (linear_sum_assignment C Q T) ≤ matchCost C B := by
  unfold linear_sum_assignment
  rcases ho : (allAssignments Q T).argmin (matchCost C) with _ | a
  · exact absurd (List.argmin_eq_none.1 ho) (allAssignments_ne_nil Q T)
  · exact List.le_of_mem_argmin (mem_allAssignments.2 hB) ho

/-- Total cost is invariant under permuting the pairs of an assignment. -/
theorem matchCost_perm (C : ℕ → ℕ → β) {A B : List (ℕ × ℕ)} (h : A.Perm B) :
    matchCost C A = matchCost C B :=
  List.Perm.sum_eq (h.map _)

/-- If `B` is (up to reordering of its pairs) the unique minimum-cost
assignment, `linear_sum_assignment` returns exactly `B` up to reordering. -/
theorem linear_sum_assignment_unique (C : ℕ → ℕ → β) (Q T : ℕ) {B : List (ℕ × ℕ)}
    (hB : isAssignment Q T B)
    (huniq : ∀ A, isAssignment Q T A → matchCost C A ≤ matchCost C B → A.Perm B) :
    (linear_sum_assignment C Q T).Perm B :=
  huniq _ (linear_sum_assignment_isAssignment C Q T)
    (linear_sum_assignment_min C Q T hB)

end Assignment

/-- The `(Q,T)` cost matrix built by `OneFormerHungarianMatcher.forward`
(lines 377-414) for one batch element: softmax the class logits, point-sample
prediction and target masks at the same `point_coords` (one shared random
draw, passed here as a parameter since the source draws it with
`torch.rand`), then
`cost_mask * pair_wise_sigmoid_ce_loss + cost_class * (-prob[:, labels]) +
cost_dice * pair_wise_dice_loss`. -/
noncomputable def matcherCostMatrix (cost_class cost_mask cost_dice : ℝ) (H W : ℕ)
    (class_queries_logits : List (List ℝ)) (masks_queries_logits : List (ℕ → ℕ → ℝ))
    (mask_labels : List (ℕ → ℕ → ℝ)) (class_labels : List ℕ)
    (point_coords : List (ℝ × ℝ)) : ℕ → ℕ → ℝ :=
  let pred_mask := masks_queries_logits.map
    (fun m => point_coords.map (fun c => pointSampleAt H W m c.1 c.2))
  let target_mask := mask_labels.map
    (fun m => point_coords.map (fun c => pointSampleAt H W m c.1 c.2))
  let cost_mask_matrix := pair_wise_sigmoid_ce_loss pred_mask target_mask
  let cost_dice_matrix := pair_wise_dice_loss pred_mask target_mask
  fun q t =>
    cost_mask * ((cost_mask_matrix.getD q []).getD t 0) +
      cost_class * (-(softmaxAt (class_queries_logits.getD q []) (class_labels.getD t 0))) +
      cost_dice * ((cost_dice_matrix.getD q []).getD t 0)

/-- `OneFormerHungarianMatcher.forward` for one batch element (the body of the
per-batch loop, lines 377-417, followed by the per-element unzip into
`(index_i, index_j)` of lines 420-422): build the cost matrix and solve the
assignment with `linear_sum_assignment`. -/
noncomputable def matcherForwardOne (cost_class cost_mask cost_dice : ℝ) (H W : ℕ)
    (masks_queries_logits : List (ℕ → ℕ → ℝ)) (class_queries_logits : List (List ℝ))
    (mask_labels : List (ℕ → ℕ → ℝ)) (class_labels : List ℕ)
    (point_coords : List (ℝ × ℝ)) : List ℕ × List ℕ :=
  let cost_matrix := matcherCostMatrix cost_class cost_mask cost_dice H W
    class_queries_logits masks_queries_logits mask_labels class_labels point_coords
  let assigned_indices :=
    linear_sum_assignment cost_matrix class_queries_logits.length class_labels.length
  (assigned_indices.map Prod.fst, assigned_indices.map Prod.snd)

/-- One batch element of the matcher input: per-query mask logits and class
logits, per-target masks and class labels, and the shared random point draw
for this element. -/
structure MatcherBatchElement where
  masks_queries_logits : List (ℕ → ℕ → ℝ)
  class_queries_logits : List (List ℝ)
  mask_labels : List (ℕ → ℕ → ℝ)
  class_labels : List ℕ
  point_coords : List (ℝ × ℝ)

/-- `OneFormerHungarianMatcher.forward` (lines 344-423): iterate over the
batch and match each element independently. -/
noncomputable def matcherForward (cost_class cost_mask cost_dice : ℝ) (H W : ℕ)
    (batch : List MatcherBatchElement) : List (List ℕ × List ℕ) :=
  batch.map (fun e => matcherForwardOne cost_class cost_mask cost_dice H W
    e.masks_queries_logits e.class_queries_logits e.mask_labels e.class_labels
    e.point_coords)

instance : Inhabited MatcherBatchElement :=
  ⟨⟨[], [], [], [], []⟩⟩

/-- Unzipping then zipping an assignment list is the identity. -/
theorem zip_map_fst_snd_self {γ δ : Type} (A : List (γ × δ)) :
    (A.map Prod.fst).zip (A.map Prod.snd) = A := by
  have h := List.zip_unzip A
  rwa [List.unzip_eq_map] at h

/-- Full specification of the per-element matcher output: a valid assignment
of size `min Q T` that minimizes the total cost, and is the unique minimizer
whenever one exists. -/
theorem matcherForwardOne_spec (cost_class cost_mask cost_dice : ℝ) (H W : ℕ)
    (masks_queries_logits : List (ℕ → ℕ → ℝ)) (class_queries_logits : List (List ℝ))
    (mask_labels : List (ℕ → ℕ → ℝ)) (class_labels : List ℕ)
    (point_coords : List (ℝ × ℝ)) :
    let Q := class_queries_logits.length
    let T := class_labels.length
    let C := matcherCostMatrix cost_class cost_mask cost_dice H W
      class_queries_logits masks_queries_logits mask_labels class_labels point_coords
    let r := matcherForwardOne cost_class cost_mask cost_dice H W
      masks_queries_logits class_queries_logits mask_labels class_labels point_coords
    r.1.length = min Q T ∧ r.2.length = min Q T ∧ r.1.Nodup ∧ r.2.Nodup ∧
      (∀ p ∈ r.1.zip r.2, p.1 < Q ∧ p.2 < T) ∧
      (∀ A, isAssignment Q T A → matchCost C (r.1.zip r.2) ≤ matchCost C A) ∧
      (∀ B, isAssignment Q T B →
        (∀ A, isAssignment Q T A → matchCost C A ≤ matchCost C B → A.Perm B) →
        (r.1.zip r.2).Perm B) := by
  intro Q T C r
  have hA : isAssignment Q T (linear_sum_assignment C Q T) :=
    linear_sum_assignment_isAssignment C Q T
  have hr1 : r.1 = (linear_sum_assignment C Q T).map Prod.fst := rfl
  have hr2 : r.2 = (linear_sum_assignment C Q T).map Prod.snd := rfl
  have hzip : r.1.zip r.2 = linear_sum_assignment C Q T := by
    rw [hr1, hr2, zip_map_fst_snd_self]
  refine ⟨?_, ?_, ?_, ?_, ?_, ?_, ?_⟩
  · rw [hr1, List.length_map]; exact hA.1
  · rw [hr2, List.length_map]; exact hA.1
  · rw [hr1]; exact hA.2.1
  · rw [hr2]; exact hA.2.2.1
  · rw [hzip]; exact hA.2.2.2
  · intro A hAv
    rw [hzip]
    exact linear_sum_assignment_min C Q T hAv
  · intro B hB huniq
    rw [hzip]
    exact linear_sum_assignment_unique C Q T hB huniq

/-- C1: for every batch element with `Q` predictions and `T` targets,
`OneFormerHungarianMatcher.forward` returns a pair of index arrays of length
`min Q T` in which each prediction index and each target index appears at
most once, the induced pairing minimizes the total cost over all one-to-one
assignments of that size, and when the cost matrix has a unique minimum-cost
matching (up to the order of its pairs) the returned matching is exactly
that matching. -/
theorem oneformer_matcher_returns_optimal_assignment
    (cost_class cost_mask cost_dice : ℝ) (H W : ℕ)
    (batch : List MatcherBatchElement) (b : ℕ) (hb : b < batch.length) :
    let e := batch.getD b default
    let Q := e.class_queries_logits.length
    let T := e.class_labels.length
    let C := matcherCostMatrix cost_class cost_mask cost_dice H W
      e.class_queries_logits e.masks_queries_logits e.mask_labels e.class_labels
      e.point_coords
    let r := (matcherForward cost_class cost_mask cost_dice H W batch).getD b ([], [])
    r.1.length = min Q T ∧ r.2.length = min Q T ∧ r.1.Nodup ∧ r.2.Nodup ∧
      (∀ p ∈ r.1.zip r.2, p.1 < Q ∧ p.2 < T) ∧
      (∀ A, isAssignment Q T A → matchCost C (r.1.zip r.2) ≤ matchCost C A) ∧
      (∀ B, isAssignment Q T B →
        (∀ A, isAssignment Q T A → matchCost C A ≤ matchCost C B → A.Perm B) →
        (r.1.zip r.2).Perm B) := by
  have hgetD : batch.getD b default = batch[b] := List.getD_eq_getElem batch default hb
  have hmap : (matcherForward cost_class cost_mask cost_dice H W batch).getD b ([], []) =
      matcherForwardOne cost_class cost_mask cost_dice H W
        (batch.getD b default).masks_queries_logits
        (batch.getD b default).class_queries_logits
        (batch.getD b default).mask_labels (batch.getD b default).class_labels
        (batch.getD b default).point_coords := by
    rw [matcherForward, List.getD_eq_getElem _ _ (by simpa using hb), List.getElem_map,
      hgetD]
  intro e Q T C r
  show r.1.length = min Q T ∧ _
  rw [show r = (matcherForward cost_class cost_mask cost_dice H W batch).getD b ([], [])
    from rfl, hmap]
  exact matcherForwardOne_spec cost_class cost_mask cost_dice H W
    e.masks_queries_logits e.class_queries_logits e.mask_labels e.class_labels
    e.point_coords

/-- Witness for C1 at a concrete one-query, one-target batch. -/
theorem oneformer_matcher_returns_optimal_assignment_witness :
    0 < ([(⟨[fun _ _ => (0:ℝ)], [[(0:ℝ)]], [fun _ _ => (0:ℝ)], [0], []⟩ :
        MatcherBatchElement)]).length ∧
      ((matcherForward 1 1 1 4 4
          [(⟨[fun _ _ => (0:ℝ)], [[(0:ℝ)]], [fun _ _ => (0:ℝ)], [0], []⟩ :
            MatcherBatchElement)]).getD 0 ([], [])).1.length = 1 :=
  ⟨by simp,
    (oneformer_matcher_returns_optimal_assignment 1 1 1 4 4
      [(⟨[fun _ _ => (0:ℝ)], [[(0:ℝ)]], [fun _ _ => (0:ℝ)], [0], []⟩ :
        MatcherBatchElement)] 0 (by simp)).1⟩

/-- Entry `(q,t)` of `pair_wise_dice_loss` in closed form. -/
theorem pair_wise_dice_loss_entry (inputs labels : List (List ℝ)) (q t : ℕ)
    (hq : q < inputs.length) (ht : t < labels.length) :
    ((pair_wise_dice_loss inputs labels).getD q []).getD t 0 =
      1 - (2 * dotList ((inputs.getD q []).map sigmoid) (labels.getD t []) + 1) /
        (((inputs.getD q []).map sigmoid).sum + (labels.getD t []).sum + 1) := by
  unfold pair_wise_dice_loss
  have h1 : ∀ (F : List ℝ → List ℝ),
      (List.map F inputs).getD q [] = F (inputs.getD q []) := by
    intro F
    rw [List.getD_eq_getElem _ _ (by simpa using hq), List.getElem_map,
      List.getD_eq_getElem _ _ hq]
  rw [h1]
  have h2 : ∀ (G : List ℝ → ℝ),
      (List.map G labels).getD t 0 = G (labels.getD t []) := by
    intro G
    rw [List.getD_eq_getElem _ _ (by simpa using ht), List.getElem_map,
      List.getD_eq_getElem _ _ ht]
  rw [h2]

/-- C2: for every batch element, the cost matrix solved by the matcher equals
`cost_class * C_class + cost_mask * C_mask + cost_dice * C_dice`, where
`C_class[q,t] = -softmax(class_logits)[q, label[t]]` and
`C_dice[q,t] = 1 - (2*intersection + 1)/(sum_pred + sum_target + 1)`, with
intersection and sums computed over the same sampled points for every
`(q,t)` pair using sigmoid-activated prediction logits (`spred i` and
`stgt j` abbreviate the sampled prediction and target rows). -/
theorem oneformer_matcher_cost_matrix_decomposition
    (cost_class cost_mask cost_dice : ℝ) (H W : ℕ)
    (class_queries_logits : List (List ℝ))
    (masks_queries_logits mask_labels : List (ℕ → ℕ → ℝ))
    (class_labels : List ℕ) (point_coords : List (ℝ × ℝ)) (q t : ℕ)
    (hq : q < masks_queries_logits.length) (ht : t < mask_labels.length)
    (spred stgt : ℕ → List ℝ)
    (hspred : ∀ i, spred i = point_coords.map (fun c =>
      pointSampleAt H W (masks_queries_logits.getD i (fun _ _ => 0)) c.1 c.2))
    (hstgt : ∀ j, stgt j = point_coords.map (fun c =>
      pointSampleAt H W (mask_labels.getD j (fun _ _ => 0)) c.1 c.2)) :
    matcherCostMatrix cost_class cost_mask cost_dice H W class_queries_logits
        masks_queries_logits mask_labels class_labels point_coords q t =
      cost_class * (-(softmaxAt (class_queries_logits.getD q [])
          (class_labels.getD t 0))) +
      cost_mask * (((pair_wise_sigmoid_ce_loss
          (masks_queries_logits.map
            (fun m => point_coords.map (fun c => pointSampleAt H W m c.1 c.2)))
          (mask_labels.map
            (fun m => point_coords.map (fun c => pointSampleAt H W m c.1 c.2)))).getD
            q []).getD t 0) +
      cost_dice * (1 - (2 * dotList ((spred q).map sigmoid) (stgt t) + 1) /
        (((spred q).map sigmoid).sum + (stgt t).sum + 1)) := by
  rw [hspred q, hstgt t]
  have hq2 : q < (masks_queries_logits.map
      (fun m => point_coords.map (fun c => pointSampleAt H W m c.1 c.2))).length := by
    simpa using hq
  have ht2 : t < (mask_labels.map
      (fun m => point_coords.map (fun c => pointSampleAt H W m c.1 c.2))).length := by
    simpa using ht
  have hsq : (masks_queries_logits.map
      (fun m => point_coords.map (fun c => pointSampleAt H W m c.1 c.2))).getD q [] =
      point_coords.map (fun c =>
        pointSampleAt H W (masks_queries_logits.getD q (fun _ _ => 0)) c.1 c.2) := by
    rw [List.getD_eq_getElem _ _ hq2, List.getElem_map, List.getD_eq_getElem _ _ hq]
  have hst : (mask_labels.map
      (fun m => point_coords.map (fun c => pointSampleAt H W m c.1 c.2))).getD t [] =
      point_coords.map (fun c =>
        pointSampleAt H W (mask_labels.getD t (fun _ _ => 0)) c.1 c.2) := by
    rw [List.getD_eq_getElem _ _ ht2, List.getElem_map, List.getD_eq_getElem _ _ ht]
  have hdice := pair_wise_dice_loss_entry _ _ q t hq2 ht2
  rw [hsq, hst] at hdice
  unfold matcherCostMatrix
  rw [hdice]
  ring

/-- Witness for C2 at a concrete one-query, one-target element (with no
sampled points, the sampled rows are both `[]`). -/
theorem oneformer_matcher_cost_matrix_decomposition_witness :
    0 < ([fun _ _ => (0:ℝ)] : List (ℕ → ℕ → ℝ)).length ∧
    0 < ([fun _ _ => (0:ℝ)] : List (ℕ → ℕ → ℝ)).length ∧
    matcherCostMatrix 1 1 1 1 1 [[0]] [fun _ _ => 0] [fun _ _ => 0] [0] [] 0 0 =
      1 * (-(softmaxAt (([[(0:ℝ)]] : List (List ℝ)).getD 0 [])
          (([0] : List ℕ).getD 0 0))) +
      1 * (((pair_wise_sigmoid_ce_loss
          (([fun _ _ => (0:ℝ)] : List (ℕ → ℕ → ℝ)).map
            (fun m => ([] : List (ℝ × ℝ)).map (fun c => pointSampleAt 1 1 m c.1 c.2)))
          (([fun _ _ => (0:ℝ)] : List (ℕ → ℕ → ℝ)).map
            (fun m => ([] : List (ℝ × ℝ)).map
              (fun c => pointSampleAt 1 1 m c.1 c.2)))).getD 0 []).getD 0 0) +
      1 * (1 - (2 * dotList (([] : List ℝ).map sigmoid) ([] : List ℝ) + 1) /
        ((([] : List ℝ).map sigmoid).sum + ([] : List ℝ).sum + 1)) :=
  ⟨Nat.one_pos, Nat.one_pos,
    oneformer_matcher_cost_matrix_decomposition 1 1 1 1 1 [[0]] [fun _ _ => 0]
      [fun _ _ => 0] [0] [] 0 0 Nat.one_pos Nat.one_pos
      (fun _ => []) (fun _ => [])
      (fun _ => (List.map_nil).symm) (fun _ => (List.map_nil).symm)⟩

/-- With zero targets the only assignment of size `min Q 0 = 0` is empty, so
the solver returns the empty assignment. -/
theorem linear_sum_assignment_nil_targets {β : Type} [LinearOrderedAddCommMonoid β]
    (C : ℕ → ℕ → β) (Q : ℕ) : linear_sum_assignment C Q 0 = [] := by
  have h := (linear_sum_assignment_isAssignment C Q 0).1
  rw [Nat.min_zero] at h
  exact List.length_eq_zero.1 h

/-- Element `b` of the batched matcher output is the per-element forward. -/
theorem matcherForward_getD (cost_class cost_mask cost_dice : ℝ) (H W : ℕ)
    (batch : List MatcherBatchElement) (b : ℕ) (hb : b < batch.length) :
    (matcherForward cost_class cost_mask cost_dice H W batch).getD b ([], []) =
      matcherForwardOne cost_class cost_mask cost_dice H W
        (batch.getD b default).masks_queries_logits
        (batch.getD b default).class_queries_logits
        (batch.getD b default).mask_labels
        (batch.getD b default).class_labels
        (batch.getD b default).point_coords := by
  rw [matcherForward, List.getD_eq_getElem _ _ (by simpa using hb), List.getElem_map,
    List.getD_eq_getElem batch default hb]

/-- C4: for every batch in which some batch element has zero ground-truth
targets, `OneFormerHungarianMatcher.forward` returns empty index arrays for
that element; the embedded forward is a total function, so no error is
raised. -/
theorem oneformer_matcher_empty_targets
    (cost_class cost_mask cost_dice : ℝ) (H W : ℕ)
    (batch : List MatcherBatchElement) (b : ℕ) (hb : b < batch.length)
    (hT : (batch.getD b default).class_labels = []) :
    (matcherForward cost_class cost_mask cost_dice H W batch).getD b ([], []) =
      ([], []) := by
  rw [matcherForward_getD cost_class cost_mask cost_dice H W batch b hb]
  unfold matcherForwardOne
  rw [hT]
  simp [linear_sum_assignment_nil_targets]

/-- Witness for C4 at a concrete batch whose only element has no targets. -/
theorem oneformer_matcher_empty_targets_witness :
    0 < ([(⟨[fun _ _ => (0:ℝ)], [[(0:ℝ)]], [], [], []⟩ :
        MatcherBatchElement)]).length ∧
    (([(⟨[fun _ _ => (0:ℝ)], [[(0:ℝ)]], [], [], []⟩ :
        MatcherBatchElement)]).getD 0 default).class_labels = [] ∧
    (matcherForward 1 1 1 4 4
        [(⟨[fun _ _ => (0:ℝ)], [[(0:ℝ)]], [], [], []⟩ :
          MatcherBatchElement)]).getD 0 ([], []) = ([], []) :=
  ⟨by simp, rfl,
    oneformer_matcher_empty_targets 1 1 1 4 4
      [(⟨[fun _ _ => (0:ℝ)], [[(0:ℝ)]], [], [], []⟩ : MatcherBatchElement)] 0
      (by simp) rfl⟩

/-- `dotList` with an empty left list. -/
theorem dotList_nil_left (b : List ℝ) : dotList [] b = 0 :=
  rfl

/-- `dotList` with an empty right list. -/
theorem dotList_nil_right (a : List ℝ) : dotList a [] = 0 := by
  unfold dotList
  rw [List.zip_nil_right]
  rfl

/-- `dotList` on cons cells. -/
theorem dotList_cons (x y : ℝ) (a b : List ℝ) :
    dotList (x :: a) (y :: b) = x * y + dotList a b :=
  rfl

/-- BCE-with-logits is affine in the label: the positive- and negative-label
decomposition used by `pair_wise_sigmoid_ce_loss` recovers the elementwise
BCE row sum exactly. -/
theorem dot_bce_decomp (irow lrow : List ℝ) :
    dotList (irow.map (fun x => bceWithLogits x 1)) lrow +
      dotList (irow.map (fun x => bceWithLogits x 0)) (lrow.map (fun y => 1 - y)) =
      ((irow.zip lrow).map (fun q => bceWithLogits q.1 q.2)).sum := by
  induction irow generalizing lrow with
  | nil => simp [dotList_nil_left]
  | cons x xs ih =>
    cases lrow with
    | nil =>
      simp [dotList_nil_right]
    | cons y ys =>
      have hpt : bceWithLogits x 1 * y + bceWithLogits x 0 * (1 - y) =
          bceWithLogits x y := by
        unfold bceWithLogits
        ring
      calc dotList ((x :: xs).map (fun x => bceWithLogits x 1)) (y :: ys) +
            dotList ((x :: xs).map (fun x => bceWithLogits x 0))
              ((y :: ys).map (fun y => 1 - y))
          = (bceWithLogits x 1 * y + bceWithLogits x 0 * (1 - y)) +
            (dotList (xs.map (fun x => bceWithLogits x 1)) ys +
              dotList (xs.map (fun x => bceWithLogits x 0))
                (ys.map (fun y => 1 - y))) := by
            rw [List.map_cons, List.map_cons, List.map_cons, dotList_cons, dotList_cons]
            ring
        _ = bceWithLogits x y +
            ((xs.zip ys).map (fun q => bceWithLogits q.1 q.2)).sum := by
            rw [hpt, ih ys]
        _ = (((x :: xs).zip (y :: ys)).map (fun q => bceWithLogits q.1 q.2)).sum := by
            rw [List.zip_cons_cons, List.map_cons, List.sum_cons]

/-- C10: for every logits matrix `inputs` of shape `(Q, M)` and labels matrix
of shape `(T, M)` with entries in `[0, 1]` (not only binary), the optimized
einsum decomposition `pair_wise_sigmoid_ce_loss` coincides with applying the
direct sigmoid cross-entropy definition (mean over the `M` points of
elementwise BCE-with-logits) to each `(q, t)` pair. -/
theorem oneformer_pair_wise_ce_refinement (inputs labels : List (List ℝ))
    (hlab : ∀ row ∈ labels, ∀ y ∈ row, 0 ≤ y ∧ y ≤ 1) :
    pair_wise_sigmoid_ce_loss inputs labels =
      direct_pair_wise_sigmoid_ce_loss inputs labels := by
  unfold pair_wise_sigmoid_ce_loss direct_pair_wise_sigmoid_ce_loss
  refine List.map_congr_left ?_
  intro irow hirow
  refine List.map_congr_left ?_
  intro lrow hlrow
  rw [dot_bce_decomp]

/-- Witness for C10 on a concrete `1×1` pair of matrices. -/
theorem oneformer_pair_wise_ce_refinement_witness :
    (∀ row ∈ ([[(0:ℝ)]] : List (List ℝ)), ∀ y ∈ row, 0 ≤ y ∧ y ≤ 1) ∧
      pair_wise_sigmoid_ce_loss [[(3:ℝ)]] [[(0:ℝ)]] =
        direct_pair_wise_sigmoid_ce_loss [[(3:ℝ)]] [[(0:ℝ)]] :=
  ⟨by norm_num, oneformer_pair_wise_ce_refinement [[(3:ℝ)]] [[(0:ℝ)]] (by norm_num)⟩

/-- On a constant map, each padded pixel lookup factors into the product of
two in-bounds indicators times the constant. -/
theorem atPix_const (H W : ℕ) (c : ℝ) (y x : ℤ) :
    atPix H W (fun _ _ => c) y x =
      (if 0 ≤ y ∧ y < (H : ℤ) then (1:ℝ) else 0) *
        (if 0 ≤ x ∧ x < (W : ℤ) then (1:ℝ) else 0) * c := by
  unfold atPix
  by_cases hy : 0 ≤ y ∧ y < (H : ℤ) <;> by_cases hx : 0 ≤ x ∧ x < (W : ℤ)
  · rw [if_pos ⟨hy.1, hy.2, hx.1, hx.2⟩, if_pos hy, if_pos hx]; ring
  · rw [if_neg (by tauto), if_pos hy, if_neg hx]; ring
  · rw [if_neg (by tauto), if_neg hy, if_pos hx]; ring
  · rw [if_neg (by tauto), if_neg hy, if_neg hx]; ring

/-- One-dimensional bilinear weights: for an interpolation position
`r ∈ [0, n-1]`, the floor-neighbour weights, masked by the in-bounds
indicators, sum to `1`. -/
theorem interp_weight_sum_one (n : ℕ) (hn : 0 < n) (r : ℝ) (h0 : 0 ≤ r)
    (h1 : r ≤ (n : ℝ) - 1) :
    (1 - (r - (⌊r⌋ : ℝ))) * (if 0 ≤ ⌊r⌋ ∧ ⌊r⌋ < (n : ℤ) then (1:ℝ) else 0) +
      (r - (⌊r⌋ : ℝ)) * (if 0 ≤ ⌊r⌋ + 1 ∧ ⌊r⌋ + 1 < (n : ℤ) then (1:ℝ) else 0) = 1 := by
  have hf0 : 0 ≤ ⌊r⌋ := Int.floor_nonneg.2 h0
  have hcast : ((n : ℝ) - 1) = (((n : ℤ) - 1 : ℤ) : ℝ) := by push_cast; ring
  have hfu : ⌊r⌋ ≤ (n : ℤ) - 1 := by
    have h := Int.floor_mono h1
    rwa [hcast, Int.floor_intCast] at h
  rcases lt_or_eq_of_le hfu with hlt | heq
  · have hc1 : 0 ≤ ⌊r⌋ ∧ ⌊r⌋ < (n : ℤ) := ⟨hf0, by omega⟩
    have hc2 : 0 ≤ ⌊r⌋ + 1 ∧ ⌊r⌋ + 1 < (n : ℤ) := ⟨by omega, by omega⟩
    rw [if_pos hc1, if_pos hc2]
    ring
  · have hc1 : 0 ≤ ⌊r⌋ ∧ ⌊r⌋ < (n : ℤ) := ⟨hf0, by omega⟩
    have hc2 : ¬(0 ≤ ⌊r⌋ + 1 ∧ ⌊r⌋ + 1 < (n : ℤ)) := by omega
    rw [if_pos hc1, if_neg hc2]
    have hr_eq : r = (⌊r⌋ : ℝ) := by
      have hle : (⌊r⌋ : ℝ) ≤ r := Int.floor_le r
      have hge : r ≤ (⌊r⌋ : ℝ) := by
        rw [heq]
        push_cast
        linarith [h1]
      linarith
    rw [← hr_eq]
    ring

/-- Interior is preserved: sampling a constant `H × W` map at a normalized
coordinate whose bilinear footprint stays inside the grid returns exactly
the constant. -/
theorem pointSampleAt_const_interior (H W : ℕ) (c : ℝ) (cx cy : ℝ)
    (hH : 0 < H) (hW : 0 < W)
    (hx0 : 1 / (2 * (W : ℝ)) ≤ cx) (hx1 : cx ≤ 1 - 1 / (2 * (W : ℝ)))
    (hy0 : 1 / (2 * (H : ℝ)) ≤ cy) (hy1 : cy ≤ 1 - 1 / (2 * (H : ℝ))) :
    pointSampleAt H W (fun _ _ => c) cx cy = c := by
  have hWr : (0:ℝ) < (W : ℝ) := by exact_mod_cast hW
  have hHr : (0:ℝ) < (H : ℝ) := by exact_mod_cast hH
  unfold pointSampleAt gridSampleAt
  dsimp only
  rw [atPix_const, atPix_const, atPix_const, atPix_const]
  have hxlo : (0:ℝ) ≤ ((2 * cx - 1 + 1) * (W : ℝ) - 1) / 2 := by
    rw [le_div_iff₀ (by norm_num : (0:ℝ) < 2)]
    have h := (div_le_iff₀ (by positivity : (0:ℝ) < 2 * (W : ℝ))).1 hx0
    nlinarith
  have hxhi : ((2 * cx - 1 + 1) * (W : ℝ) - 1) / 2 ≤ (W : ℝ) - 1 := by
    rw [div_le_iff₀ (by norm_num : (0:ℝ) < 2)]
    have h : cx * (W : ℝ) ≤ (1 - 1 / (2 * (W : ℝ))) * (W : ℝ) :=
      mul_le_mul_of_nonneg_right hx1 (le_of_lt hWr)
    have h2 : (1 - 1 / (2 * (W : ℝ))) * (W : ℝ) = (W : ℝ) - 1 / 2 := by
      field_simp
      ring
    nlinarith
  have hylo : (0:ℝ) ≤ ((2 * cy - 1 + 1) * (H : ℝ) - 1) / 2 := by
    rw [le_div_iff₀ (by norm_num : (0:ℝ) < 2)]
    have h := (div_le_iff₀ (by positivity : (0:ℝ) < 2 * (H : ℝ))).1 hy0
    nlinarith
  have hyhi : ((2 * cy - 1 + 1) * (H : ℝ) - 1) / 2 ≤ (H : ℝ) - 1 := by
    rw [div_le_iff₀ (by norm_num : (0:ℝ) < 2)]
    have h : cy * (H : ℝ) ≤ (1 - 1 / (2 * (H : ℝ))) * (H : ℝ) :=
      mul_le_mul_of_nonneg_right hy1 (le_of_lt hHr)
    have h2 : (1 - 1 / (2 * (H : ℝ))) * (H : ℝ) = (H : ℝ) - 1 / 2 := by
      field_simp
      ring
    nlinarith
  have hX := interp_weight_sum_one W hW (((2 * cx - 1 + 1) * (W : ℝ) - 1) / 2) hxlo hxhi
  have hY := interp_weight_sum_one H hH (((2 * cy - 1 + 1) * (H : ℝ) - 1) / 2) hylo hyhi
  set rx := ((2 * cx - 1 + 1) * (W : ℝ) - 1) / 2 with hrx
  set ry := ((2 * cy - 1 + 1) * (H : ℝ) - 1) / 2 with hry
  set Ix0 := if 0 ≤ ⌊rx⌋ ∧ ⌊rx⌋ < (W : ℤ) then (1:ℝ) else 0 with hIx0
  set Ix1 := if 0 ≤ ⌊rx⌋ + 1 ∧ ⌊rx⌋ + 1 < (W : ℤ) then (1:ℝ) else 0 with hIx1
  set Iy0 := if 0 ≤ ⌊ry⌋ ∧ ⌊ry⌋ < (H : ℤ) then (1:ℝ) else 0 with hIy0
  set Iy1 := if 0 ≤ ⌊ry⌋ + 1 ∧ ⌊ry⌋ + 1 < (H : ℤ) then (1:ℝ) else 0 with hIy1
  calc (1 - (ry - (⌊ry⌋ : ℝ))) * (1 - (rx - (⌊rx⌋ : ℝ))) * (Iy0 * Ix0 * c) +
        (1 - (ry - (⌊ry⌋ : ℝ))) * (rx - (⌊rx⌋ : ℝ)) * (Iy0 * Ix1 * c) +
        (ry - (⌊ry⌋ : ℝ)) * (1 - (rx - (⌊rx⌋ : ℝ))) * (Iy1 * Ix0 * c) +
        (ry - (⌊ry⌋ : ℝ)) * (rx - (⌊rx⌋ : ℝ)) * (Iy1 * Ix1 * c)
      = ((1 - (ry - (⌊ry⌋ : ℝ))) * Iy0 + (ry - (⌊ry⌋ : ℝ)) * Iy1) *
          (((1 - (rx - (⌊rx⌋ : ℝ))) * Ix0 + (rx - (⌊rx⌋ : ℝ)) * Ix1)) * c := by
        ring
    _ = 1 * 1 * c := by rw [hX, hY]
    _ = c := by ring

/-- Counterexample for C9: sampling a constant-1 `1×1` map at the corner
coordinate `(0,0)` (allowed by the claim, which admits every coordinate in
`[0,1]²`) does not return the constant: with `align_corners=False` and zero
padding, three of the four bilinear neighbours read padding, giving `1/4`. -/
theorem oneformer_point_sample_constant_counterexample :
    pointSampleAt 1 1 (fun _ _ => (1:ℝ)) 0 0 ≠ 1 := by
  unfold pointSampleAt gridSampleAt atPix
  norm_num

/-- C9 (amended): for every constant-valued map and every coordinate in
`[1/(2W), 1-1/(2W)] × [1/(2H), 1-1/(2H)]` (so that the bilinear footprint of
the sample stays inside the grid), `point_sample` returns exactly that
constant; at boundary coordinates outside this region the zero padding
leaks in and the claim fails. -/
theorem oneformer_point_sample_constant_roundtrip (H W : ℕ) (c : ℝ) (cx cy : ℝ)
    (hH : 0 < H) (hW : 0 < W)
    (hx0 : 1 / (2 * (W : ℝ)) ≤ cx) (hx1 : cx ≤ 1 - 1 / (2 * (W : ℝ)))
    (hy0 : 1 / (2 * (H : ℝ)) ≤ cy) (hy1 : cy ≤ 1 - 1 / (2 * (H : ℝ))) :
    pointSampleAt H W (fun _ _ => c) cx cy = c :=
  pointSampleAt_const_interior H W c cx cy hH hW hx0 hx1 hy0 hy1

/-- Witness for (amended) C9 at a concrete `2×2` map and center coordinate. -/
theorem oneformer_point_sample_constant_roundtrip_witness :
    (0 < 2 ∧ 1 / (2 * ((2:ℕ) : ℝ)) ≤ 1/2 ∧ (1:ℝ)/2 ≤ 1 - 1 / (2 * ((2:ℕ) : ℝ))) ∧
      pointSampleAt 2 2 (fun _ _ => (5:ℝ)) (1/2) (1/2) = 5 :=
  ⟨⟨by norm_num, by norm_num, by norm_num⟩,
    oneformer_point_sample_constant_roundtrip 2 2 5 (1/2) (1/2) (by norm_num)
      (by norm_num) (by norm_num) (by norm_num) (by norm_num) (by norm_num)⟩

/-- `OneFormerLoss.get_num_masks` (lines 729-735): the raw total count of
ground-truth objects summed over the batch, as a real scalar; no clamp is
applied. -/
noncomputable def get_num_masks (class_labels : List (List ℕ)) : ℝ :=
  (((class_labels.map List.length).sum : ℕ) : ℝ)


/-- The gather step of `OneFormerLoss.loss_masks` (lines 607-614): pick, for
each batch element, the masks named by its matched index list, concatenated
across the batch (the flattened `(batch_indices, indices)` advanced-indexing
of the source). -/
def gather_masks (masks : List (List (ℕ → ℕ → ℝ))) (idxs : List (List ℕ)) :
    List (ℕ → ℕ → ℝ) :=
  (masks.zip idxs).flatMap (fun p => p.2.map (fun s => p.1.getD s (fun _ _ => 0)))

/-- `OneFormerLoss.loss_masks` (lines 586-648): gather the matched prediction
masks and (zero-padded, modelled by total functions on the padded `H × W`
grid) target masks by the matcher indices, point-sample both at the same
`point_coords` (the uncertainty-sampled coordinates, passed as a parameter
since they are drawn randomly under `torch.no_grad`), and compute
`sigmoid_ce_loss` and `dice_loss` with normalizer `num_masks`. -/
noncomputable def loss_masks (masks_queries_logits mask_labels : List (List (ℕ → ℕ → ℝ)))
    (indices : List (List ℕ × List ℕ)) (num_masks : ℝ) (H W : ℕ)
    (point_coords : List (ℝ × ℝ)) : ℝ × ℝ :=
  (sigmoid_ce_loss
      ((gather_masks masks_queries_logits (indices.map Prod.fst)).map
        (fun m => point_coords.map (fun c => pointSampleAt H W m c.1 c.2)))
      ((gather_masks mask_labels (indices.map Prod.snd)).map
        (fun m => point_coords.map (fun c => pointSampleAt H W m c.1 c.2)))
      num_masks,
    dice_loss
      ((gather_masks masks_queries_logits (indices.map Prod.fst)).map
        (fun m => point_coords.map (fun c => pointSampleAt H W m c.1 c.2)))
      ((gather_masks mask_labels (indices.map Prod.snd)).map
        (fun m => point_coords.map (fun c => pointSampleAt H W m c.1 c.2)))
      num_masks)

/-- The mask-loss part of `OneFormerLoss.forward` (lines 706-712): the
normalizer passed to `loss_masks` is `get_num_masks class_labels`. -/
noncomputable def forward_mask_losses
    (masks_queries_logits mask_labels : List (List (ℕ → ℕ → ℝ)))
    (class_labels : List (List ℕ)) (indices : List (List ℕ × List ℕ)) (H W : ℕ)
    (point_coords : List (ℝ × ℝ)) : ℝ × ℝ :=
  loss_masks masks_queries_logits mask_labels indices (get_num_masks class_labels)
    H W point_coords

/-- Zipping two maps over a common coordinate list and mapping a binary
function is mapping the fused function. -/
theorem zipped_rows_map {γ : Type} (coords : List γ) (u v : γ → ℝ) (h : ℝ → ℝ → ℝ) :
    ((coords.map u).zip (coords.map v)).map (fun p => h p.1 p.2) =
      coords.map (fun c => h (u c) (v c)) := by
  rw [List.zip_map', List.map_map]
  rfl

/-- `dotList` of two maps over a common coordinate list. -/
theorem dotList_map_rows {γ : Type} (coords : List γ) (u v : γ → ℝ) :
    dotList (coords.map u) (coords.map v) = (coords.map (fun c => u c * v c)).sum := by
  unfold dotList
  rw [List.zip_map', List.map_map]
  rfl

/-- Summing a row function over the zipped point-sampled gathers equals the
blockwise sum over matched `(prediction, target)` pairs, for any row
function `R` agreeing with the per-pair entry `E` on sampled rows. -/
theorem matched_pairs_sum (H W : ℕ) (coords : List (ℝ × ℝ))
    (R : List ℝ → List ℝ → ℝ) (E : (ℕ → ℕ → ℝ) → (ℕ → ℕ → ℝ) → ℝ)
    (hRE : ∀ pm tm, R (coords.map (fun c => pointSampleAt H W pm c.1 c.2))
      (coords.map (fun c => pointSampleAt H W tm c.1 c.2)) = E pm tm) :
    ∀ (ind : List (List ℕ × List ℕ)) (m t : List (List (ℕ → ℕ → ℝ))),
    m.length = ind.length → t.length = ind.length →
    (∀ p ∈ ind, p.1.length = p.2.length) →
    ((((gather_masks m (ind.map Prod.fst)).map
        (fun mk => coords.map (fun c => pointSampleAt H W mk c.1 c.2))).zip
      ((gather_masks t (ind.map Prod.snd)).map
        (fun mk => coords.map (fun c => pointSampleAt H W mk c.1 c.2)))).map
      (fun p => R p.1 p.2)).sum =
    (((m.zip t).zip ind).flatMap (fun p => (p.2.1.zip p.2.2).map (fun st =>
      E (p.1.1.getD st.1 (fun _ _ => 0)) (p.1.2.getD st.2 (fun _ _ => 0))))).sum := by
  intro ind
  induction ind with
  | nil =>
    intro m t _ _ _
    simp [gather_masks]
  | cons idx ind ih =>
    intro m t h1 h2 hlen
    cases m with
    | nil => simp at h1
    | cons mm m =>
      cases t with
      | nil => simp at h2
      | cons tt t =>
        have hidx : idx.1.length = idx.2.length := hlen idx (List.mem_cons_self idx ind)
        simp only [gather_masks, List.map_cons, List.zip_cons_cons, List.flatMap_cons]
        rw [List.map_append, List.map_append,
          List.zip_append (by simp [hidx]), List.map_append, List.sum_append,
          List.sum_append]
        congr 1
        · rw [List.map_map, List.map_map, List.zip_map, List.map_map]
          congr 1
          refine List.map_congr_left ?_
          rintro ⟨s, u⟩ _
          exact hRE _ _
        · exact ih m t (by simpa using h1) (by simpa using h2)
            (fun p hp => hlen p (List.mem_cons_of_mem idx hp))

/-- The matched `(prediction mask, target mask)` pairs named by the matcher
indices, in batch order. -/
def matched_mask_pairs (m t : List (List (ℕ → ℕ → ℝ)))
    (ind : List (List ℕ × List ℕ)) : List ((ℕ → ℕ → ℝ) × (ℕ → ℕ → ℝ)) :=
  ((m.zip t).zip ind).flatMap (fun p => (p.2.1.zip p.2.2).map (fun st =>
    (p.1.1.getD st.1 (fun _ _ => 0), p.1.2.getD st.2 (fun _ _ => 0))))

/-- C3: in `OneFormerLoss.forward` the normalizer `num_masks` passed to the
mask losses equals the total count of ground-truth objects summed over the
batch; `loss_mask` equals the per-pair mean over the sampled points of
sigmoid cross-entropy, summed over the matched pairs and divided by
`num_masks`, and `loss_dice` is the per-pair dice term summed over the
matched pairs and divided by `num_masks`; when the total count is zero the
division is performed with normalizer zero (no clamp or skip). -/
theorem oneformer_loss_num_masks_normalizer
    (masks_queries_logits mask_labels : List (List (ℕ → ℕ → ℝ)))
    (class_labels : List (List ℕ)) (indices : List (List ℕ × List ℕ)) (H W : ℕ)
    (point_coords : List (ℝ × ℝ))
    (hB1 : masks_queries_logits.length = indices.length)
    (hB2 : mask_labels.length = indices.length)
    (hlen : ∀ p ∈ indices, p.1.length = p.2.length) :
    get_num_masks class_labels = (((class_labels.map List.length).sum : ℕ) : ℝ) ∧
    ((∀ l ∈ class_labels, l = []) → get_num_masks class_labels = 0) ∧
    (forward_mask_losses masks_queries_logits mask_labels class_labels indices
        H W point_coords).1 =
      (((matched_mask_pairs masks_queries_logits mask_labels indices).map (fun pr =>
        ((point_coords.map (fun c => bceWithLogits (pointSampleAt H W pr.1 c.1 c.2)
          (pointSampleAt H W pr.2 c.1 c.2))).sum) / (point_coords.length : ℝ))).sum) /
        get_num_masks class_labels ∧
    (forward_mask_losses masks_queries_logits mask_labels class_labels indices
        H W point_coords).2 =
      (((matched_mask_pairs masks_queries_logits mask_labels indices).map (fun pr =>
        1 - (2 * ((point_coords.map (fun c => sigmoid (pointSampleAt H W pr.1 c.1 c.2) *
              pointSampleAt H W pr.2 c.1 c.2)).sum) + 1) /
          (((point_coords.map (fun c => sigmoid (pointSampleAt H W pr.1 c.1 c.2))).sum) +
            ((point_coords.map (fun c => pointSampleAt H W pr.2 c.1 c.2)).sum) + 1))).sum)
        / get_num_masks class_labels := by
  refine ⟨rfl, ?_, ?_, ?_⟩
  · intro h
    unfold get_num_masks
    rw [Nat.cast_eq_zero]
    apply List.sum_eq_zero
    intro x hx
    obtain ⟨l, hl, rfl⟩ := List.mem_map.1 hx
    rw [h l hl]
    rfl
  · show sigmoid_ce_loss _ _ _ = _
    unfold sigmoid_ce_loss matched_mask_pairs
    congr 1
    refine Eq.trans (matched_pairs_sum H W point_coords
      (fun r1 r2 => (((r1.zip r2).map (fun q => bceWithLogits q.1 q.2)).sum) /
        (r1.length : ℝ))
      (fun pm tm => ((point_coords.map (fun c =>
        bceWithLogits (pointSampleAt H W pm c.1 c.2)
          (pointSampleAt H W tm c.1 c.2))).sum) / (point_coords.length : ℝ))
      (fun pm tm => by
        dsimp only
        rw [zipped_rows_map, List.length_map])
      indices masks_queries_logits mask_labels hB1 hB2 hlen) ?_
    rw [List.map_flatMap]
    simp only [List.map_map]
    rfl
  · show dice_loss _ _ _ = _
    unfold dice_loss matched_mask_pairs
    congr 1
    refine Eq.trans (matched_pairs_sum H W point_coords
      (fun r1 r2 => 1 - (2 * dotList (r1.map sigmoid) r2 + 1) /
        ((r1.map sigmoid).sum + r2.sum + 1))
      (fun pm tm => 1 - (2 * ((point_coords.map (fun c =>
            sigmoid (pointSampleAt H W pm c.1 c.2) *
              pointSampleAt H W tm c.1 c.2)).sum) + 1) /
          (((point_coords.map (fun c => sigmoid (pointSampleAt H W pm c.1 c.2))).sum) +
            ((point_coords.map (fun c => pointSampleAt H W tm c.1 c.2)).sum) + 1))
      (fun pm tm => by
        dsimp only
        simp only [List.map_map]
        rw [dotList_map_rows]
        rfl)
      indices masks_queries_logits mask_labels hB1 hB2 hlen) ?_
    rw [List.map_flatMap]
    simp only [List.map_map]
    rfl

/-- Witness for C3 at a concrete one-element batch with one matched pair. -/
theorem oneformer_loss_num_masks_normalizer_witness :
    ([[fun _ _ => (0:ℝ)]] : List (List (ℕ → ℕ → ℝ))).length =
        ([([0], [0])] : List (List ℕ × List ℕ)).length ∧
    (∀ p ∈ ([([0], [0])] : List (List ℕ × List ℕ)), p.1.length = p.2.length) ∧
    get_num_masks [[2]] = ((([[2]] : List (List ℕ)).map List.length).sum : ℕ) :=
  ⟨by simp, by decide,
    (oneformer_loss_num_masks_normalizer [[fun _ _ => 0]] [[fun _ _ => 0]] [[2]]
      [([0], [0])] 1 1 [] (by simp) (by simp) (by decide)).1⟩

/-- One vectorized-scatter write `target_classes[b, q] := v` of
`target_classes[idx] = target_classes_o` in `OneFormerLoss.loss_labels`. -/
def scatterUpd (f : ℕ → ℕ → ℕ) (w : ℕ × ℕ × ℕ) : ℕ → ℕ → ℕ :=
  fun b q => if b = w.1 ∧ q = w.2.1 then w.2.2 else f b q

/-- The writes contributed by one batch element: for each matched pair
`(src, tgt)`, write the true label `class_labels[tgt]` at position
`(b, src)`. -/
def writeBlock (b : ℕ) (p : List ℕ × (List ℕ × List ℕ)) : List (ℕ × ℕ × ℕ) :=
  (p.2.1.zip p.2.2).map (fun st => (b, st.1, p.1.getD st.2 0))

/-- All scatter writes of `loss_labels` (lines 572-579), batch elements
enumerated from offset `b`. -/
def scatterWritesAux (b : ℕ) : List (List ℕ × (List ℕ × List ℕ)) → List (ℕ × ℕ × ℕ)
  | [] => []
  | p :: rest => writeBlock b p ++ scatterWritesAux (b + 1) rest

/-- The `(batch, Q)` target-class tensor of `OneFormerLoss.loss_labels`
(lines 574-579): `torch.full` with the no-object index `num_classes`, then
the positional scatter of the matched true labels. -/
def target_classes (num_classes : ℕ) (class_labels : List (List ℕ))
    (indices : List (List ℕ × List ℕ)) : ℕ → ℕ → ℕ :=
  (scatterWritesAux 0 (class_labels.zip indices)).foldl scatterUpd
    (fun _ _ => num_classes)

/-- `empty_weight` buffer of `OneFormerLoss.__init__` (lines 478-480):
all-ones of length `num_classes + 1` with the last entry set to `eos_coef`. -/
noncomputable def empty_weight (num_classes : ℕ) (eos_coef : ℝ) : List ℝ :=
  (List.replicate (num_classes + 1) (1:ℝ)).set num_classes eos_coef

/-- A fold of scatter writes leaves untouched positions at their initial
value. -/
theorem foldl_scatterUpd_not_mem :
    ∀ (ws : List (ℕ × ℕ × ℕ)) (f0 : ℕ → ℕ → ℕ) (b q : ℕ),
    (∀ w ∈ ws, ¬(b = w.1 ∧ q = w.2.1)) → ws.foldl scatterUpd f0 b q = f0 b q := by
  intro ws
  induction ws with
  | nil => intro f0 b q _; rfl
  | cons w ws ih =>
    intro f0 b q h
    rw [List.foldl_cons, ih _ b q (fun v hv => h v (List.mem_cons_of_mem w hv))]
    unfold scatterUpd
    rw [if_neg (h w (List.mem_cons_self w ws))]

/-- A fold of scatter writes with pairwise-distinct keys stores each written
value at its key. -/
theorem foldl_scatterUpd_mem :
    ∀ (ws : List (ℕ × ℕ × ℕ)) (f0 : ℕ → ℕ → ℕ) (w : ℕ × ℕ × ℕ),
    w ∈ ws → (ws.map (fun v => (v.1, v.2.1))).Nodup →
    ws.foldl scatterUpd f0 w.1 w.2.1 = w.2.2 := by
  intro ws
  induction ws with
  | nil => intro f0 w h _; simp at h
  | cons w0 ws ih =>
    intro f0 w hw hnd
    rw [List.map_cons, List.nodup_cons] at hnd
    rw [List.foldl_cons]
    rcases List.mem_cons.1 hw with rfl | hw'
    · have hkey : ∀ v ∈ ws, ¬(w.1 = v.1 ∧ w.2.1 = v.2.1) := by
        intro v hv hc
        apply hnd.1
        have : (v.1, v.2.1) ∈ ws.map (fun v => (v.1, v.2.1)) :=
          List.mem_map_of_mem _ hv
        rw [hc.1, hc.2]
        exact this
      rw [foldl_scatterUpd_not_mem ws _ _ _ hkey]
      unfold scatterUpd
      rw [if_pos ⟨rfl, rfl⟩]
    · exact ih _ w hw' hnd.2

/-- Every write produced by `scatterWritesAux` comes from some batch element
and one of its matched pairs. -/
theorem mem_scatterWritesAux :
    ∀ (l : List (List ℕ × (List ℕ × List ℕ))) (off : ℕ) (w : ℕ × ℕ × ℕ),
    w ∈ scatterWritesAux off l →
    ∃ i, i < l.length ∧ w.1 = off + i ∧
      ∃ st ∈ ((l.getD i ([], ([], []))).2.1.zip ((l.getD i ([], ([], []))).2.2)),
        w.2.1 = st.1 ∧ w.2.2 = (l.getD i ([], ([], []))).1.getD st.2 0 := by
  intro l
  induction l with
  | nil => intro off w h; simp [scatterWritesAux] at h
  | cons p rest ih =>
    intro off w h
    rw [scatterWritesAux, List.mem_append] at h
    rcases h with h | h
    · unfold writeBlock at h
      obtain ⟨st, hst, rfl⟩ := List.mem_map.1 h
      exact ⟨0, by simp, by simp, st, by simpa using hst, rfl, rfl⟩
    · obtain ⟨i, hi, h1, st, hst, h2, h3⟩ := ih (off + 1) w h
      refine ⟨i + 1, by simpa using hi, by omega, st, ?_, h2, ?_⟩
      · simpa [List.getD_cons_succ] using hst
      · simpa [List.getD_cons_succ] using h3

/-- Conversely, each matched pair of each batch element contributes its
write. -/
theorem scatterWritesAux_mem_of :
    ∀ (l : List (List ℕ × (List ℕ × List ℕ))) (off i : ℕ), i < l.length →
    ∀ st ∈ ((l.getD i ([], ([], []))).2.1.zip ((l.getD i ([], ([], []))).2.2)),
    (off + i, st.1, (l.getD i ([], ([], []))).1.getD st.2 0) ∈
      scatterWritesAux off l := by
  intro l
  induction l with
  | nil => intro off i hi; simp at hi
  | cons p rest ih =>
    intro off i hi st hst
    rw [scatterWritesAux, List.mem_append]
    cases i with
    | zero =>
      left
      unfold writeBlock
      simp only [List.getD_cons_zero] at hst ⊢
      simpa using List.mem_map_of_mem (fun st => (off, st.1, p.1.getD st.2 0)) hst
    | succ i =>
      right
      simp only [List.getD_cons_succ] at hst ⊢
      have := ih (off + 1) i (by simpa using hi) st hst
      have harith : off + 1 + i = off + (i + 1) := by omega
      rwa [harith] at this

/-- Every write of `scatterWritesAux off l` has batch index at least
`off`. -/
theorem scatterWritesAux_fst_ge :
    ∀ (l : List (List ℕ × (List ℕ × List ℕ))) (off : ℕ) (w : ℕ × ℕ × ℕ),
    w ∈ scatterWritesAux off l → off ≤ w.1 := by
  intro l off w h
  obtain ⟨i, _, h1, _⟩ := mem_scatterWritesAux l off w h
  omega

/-- The first components of a zip form a sublist of the first list. -/
theorem map_fst_zip_sublist {γ δ : Type} :
    ∀ (a : List γ) (b : List δ), ((a.zip b).map Prod.fst).Sublist a := by
  intro a
  induction a with
  | nil => intro b; simp
  | cons x xs ih =>
    intro b
    cases b with
    | nil => simp
    | cons y ys =>
      rw [List.zip_cons_cons, List.map_cons]
      exact List.Sublist.cons₂ x (ih ys)

/-- If each batch element's source indices are duplicate-free, all scatter
keys are pairwise distinct. -/
theorem scatterWritesAux_keys_nodup :
    ∀ (l : List (List ℕ × (List ℕ × List ℕ))) (off : ℕ),
    (∀ p ∈ l, p.2.1.Nodup) →
    ((scatterWritesAux off l).map (fun v => (v.1, v.2.1))).Nodup := by
  intro l
  induction l with
  | nil => intro off _; simp [scatterWritesAux]
  | cons p rest ih =>
    intro off h
    rw [scatterWritesAux, List.map_append, List.nodup_append]
    refine ⟨?_, ih (off + 1) (fun v hv => h v (List.mem_cons_of_mem p hv)), ?_⟩
    · unfold writeBlock
      rw [List.map_map]
      have heq : ((fun v : ℕ × ℕ × ℕ => (v.1, v.2.1)) ∘
          (fun st : ℕ × ℕ => (off, st.1, p.1.getD st.2 0))) =
          ((fun s => (off, s)) ∘ Prod.fst) := rfl
      rw [heq, ← List.map_map]
      refine List.Nodup.map ?_ ?_
      · intro a b hab
        simpa using hab
      · exact (map_fst_zip_sublist _ _).nodup (h p (List.mem_cons_self p rest))
    · intro k hk1 hk2
      obtain ⟨w1, hw1, rfl⟩ := List.mem_map.1 hk1
      obtain ⟨w2, hw2, hk⟩ := List.mem_map.1 hk2
      unfold writeBlock at hw1
      obtain ⟨st, _, rfl⟩ := List.mem_map.1 hw1
      have hge := scatterWritesAux_fst_ge rest (off + 1) w2 hw2
      have : w2.1 = off := congrArg Prod.fst hk
      omega

/-- C5: in `OneFormerLoss.loss_labels` the `(batch, Q)` target-class tensor
equals the no-object index `num_classes` at every position not named by the
matched indices, equals the true class label `class_labels[b][tgt_k]` at
every matched position `(b, src_k)`, and the cross-entropy weight vector
carries the configured eos coefficient on the no-object class and weight 1
on every real class. -/
theorem oneformer_loss_labels_target_classes
    (num_classes : ℕ) (eos_coef : ℝ) (class_labels : List (List ℕ))
    (indices : List (List ℕ × List ℕ))
    (hB : class_labels.length = indices.length)
    (hlen : ∀ p ∈ indices, p.1.length = p.2.length)
    (hnd : ∀ p ∈ indices, p.1.Nodup) :
    (∀ b q, q ∉ (indices.getD b ([], [])).1 →
      target_classes num_classes class_labels indices b q = num_classes) ∧
    (∀ b, b < indices.length → ∀ k, k < (indices.getD b ([], [])).1.length →
      target_classes num_classes class_labels indices b
          ((indices.getD b ([], [])).1.getD k 0) =
        (class_labels.getD b []).getD ((indices.getD b ([], [])).2.getD k 0) 0) ∧
    (∀ c, c < num_classes → (empty_weight num_classes eos_coef).getD c 0 = 1) ∧
    (empty_weight num_classes eos_coef).getD num_classes 0 = eos_coef := by
  have hzlen : (class_labels.zip indices).length = indices.length := by
    rw [List.length_zip, hB, min_self]
  have hz2 : ∀ i, i < indices.length →
      (class_labels.zip indices).getD i ([], ([], [])) =
        (class_labels.getD i [], indices.getD i ([], [])) := by
    intro i hi
    rw [List.getD_eq_getElem _ _ (by rw [hzlen]; exact hi), List.getElem_zip,
      List.getD_eq_getElem class_labels _ (by rw [hB]; exact hi),
      List.getD_eq_getElem indices _ hi]
  refine ⟨?_, ?_, ?_, ?_⟩
  · intro b q hq
    unfold target_classes
    apply foldl_scatterUpd_not_mem
    intro w hw hc
    obtain ⟨i, hi, hwi, st, hst, hw21, _⟩ :=
      mem_scatterWritesAux (class_labels.zip indices) 0 w hw
    rw [hzlen] at hi
    rw [hz2 i hi] at hst
    have hib : i = b := by omega
    subst hib
    rcases st with ⟨s, t⟩
    apply hq
    rw [hc.2, hw21]
    exact (List.of_mem_zip hst).1
  · intro b hb k hk
    have hsl : b < (class_labels.zip indices).length := by rw [hzlen]; exact hb
    have hmemidx : indices.getD b ([], []) ∈ indices := by
      rw [List.getD_eq_getElem indices _ hb]
      exact List.getElem_mem hb
    have hkt : k < (indices.getD b ([], [])).2.length := by
      rw [← hlen _ hmemidx]
      exact hk
    have hst : ((indices.getD b ([], [])).1.getD k 0,
        (indices.getD b ([], [])).2.getD k 0) ∈
        (indices.getD b ([], [])).1.zip (indices.getD b ([], [])).2 := by
      have hkz : k < ((indices.getD b ([], [])).1.zip
          (indices.getD b ([], [])).2).length := by
        rw [List.length_zip]
        exact lt_min hk hkt
      have hgz := @List.getElem_zip ℕ ℕ (indices.getD b ([], [])).1
        (indices.getD b ([], [])).2 k hkz
      rw [List.getD_eq_getElem _ _ hk, List.getD_eq_getElem _ _ hkt, ← hgz]
      exact List.getElem_mem hkz
    have hst2 : ((indices.getD b ([], [])).1.getD k 0,
        (indices.getD b ([], [])).2.getD k 0) ∈
        (((class_labels.zip indices).getD b ([], ([], []))).2.1.zip
          ((class_labels.zip indices).getD b ([], ([], []))).2.2) := by
      rw [hz2 b hb]
      exact hst
    have hmem := scatterWritesAux_mem_of (class_labels.zip indices) 0 b hsl _ hst2
    have hnodups : ∀ p ∈ class_labels.zip indices, p.2.1.Nodup := by
      rintro ⟨labs, idx⟩ hp
      exact hnd idx (List.of_mem_zip hp).2
    have hkeys := scatterWritesAux_keys_nodup (class_labels.zip indices) 0 hnodups
    have hfold := foldl_scatterUpd_mem (scatterWritesAux 0 (class_labels.zip indices))
      (fun _ _ => num_classes) _ hmem hkeys
    unfold target_classes
    rw [hz2 b hb] at hfold
    simpa using hfold
  · intro c hc
    unfold empty_weight
    rw [List.getD_eq_getElem _ _ (by simp; omega), List.getElem_set,
      if_neg (by omega)]
    exact List.getElem_replicate 1 _
  · unfold empty_weight
    rw [List.getD_eq_getElem _ _ (by simp), List.getElem_set, if_pos rfl]

/-- Witness for C5 at a concrete batch with one matched pair. -/
theorem oneformer_loss_labels_target_classes_witness :
    ([[1]] : List (List ℕ)).length = ([([0], [0])] : List (List ℕ × List ℕ)).length ∧
    (∀ p ∈ ([([0], [0])] : List (List ℕ × List ℕ)), p.1.length = p.2.length) ∧
    (∀ p ∈ ([([0], [0])] : List (List ℕ × List ℕ)), p.1.Nodup) ∧
    (empty_weight 3 (1/10)).getD 3 0 = 1/10 :=
  ⟨by simp, by decide, by decide,
    (oneformer_loss_labels_target_classes 3 (1/10) [[1]] [([0], [0])]
      (by simp) (by decide) (by decide)).2.2.2⟩

/-- The names of the per-layer losses in the order merged by
`OneFormerLoss.forward` (lines 711-716): `loss_masks` contributes
`loss_mask` and `loss_dice`, `loss_labels` contributes
`loss_cross_entropy`, and `loss_contrastive` is appended only when
requested. -/
def base_loss_keys (calculate_contrastive : Bool) : List String :=
  ["loss_mask", "loss_dice", "loss_cross_entropy"] ++
    (if calculate_contrastive then ["loss_contrastive"] else [])

/-- Key-level model of `OneFormerLoss.forward` (lines 662-727). When the
contrastive loss is requested but no contrastive temperature was configured,
`loss_contrastive` reads the nonexistent `self.logit_scale` and the call
fails (modelled as `none`). Otherwise the result holds the final-layer keys
followed by, for each auxiliary layer `idx` (lines 719-725), the base keys
of the recursive call — which passes `calculate_contrastive_loss=False`, so
no contrastive term — suffixed with `_idx`. -/
def loss_forward_keys (has_temperature calculate_contrastive : Bool)
    (num_aux : ℕ) : Option (List String) :=
  if calculate_contrastive ∧ ¬has_temperature then none
  else some (base_loss_keys calculate_contrastive ++
    (List.range num_aux).flatMap (fun i =>
      (base_loss_keys false).map (fun k => k ++ "_" ++ toString i)))

/-- C7: the mapping returned by `OneFormerLoss.forward` contains exactly the
keys `loss_cross_entropy`, `loss_mask` and `loss_dice` for the final layer,
plus `loss_contrastive` exactly when contrastive computation is requested
(requesting it without a configured temperature fails), and for each
auxiliary layer `i` exactly the keys `loss_cross_entropy_i`, `loss_mask_i`
and `loss_dice_i`, with no contrastive term for auxiliary layers. -/
theorem oneformer_loss_forward_keys (has_temperature calculate_contrastive : Bool)
    (num_aux : ℕ) (h : calculate_contrastive = true → has_temperature = true) :
    ∃ l, loss_forward_keys has_temperature calculate_contrastive num_aux = some l ∧
      ∀ s, s ∈ l ↔ (s = "loss_cross_entropy" ∨ s = "loss_mask" ∨ s = "loss_dice" ∨
        (calculate_contrastive = true ∧ s = "loss_contrastive") ∨
        ∃ i, i < num_aux ∧ (s = "loss_cross_entropy" ++ "_" ++ toString i ∨
          s = "loss_mask" ++ "_" ++ toString i ∨
          s = "loss_dice" ++ "_" ++ toString i)) := by
  have hcond : ¬(calculate_contrastive ∧ ¬has_temperature) := by
    rintro ⟨h1, h2⟩
    exact h2 (h h1)
  rw [loss_forward_keys, if_neg hcond]
  refine ⟨_, rfl, ?_⟩
  intro s
  cases calculate_contrastive with
  | false =>
    simp [base_loss_keys]
    constructor
    · rintro (h1 | h1 | h1 | ⟨i, hi, h1 | h1 | h1⟩)
      · exact Or.inr (Or.inl h1)
      · exact Or.inr (Or.inr (Or.inl h1))
      · exact Or.inl h1
      · exact Or.inr (Or.inr (Or.inr ⟨i, hi, Or.inr (Or.inl h1)⟩))
      · exact Or.inr (Or.inr (Or.inr ⟨i, hi, Or.inr (Or.inr h1)⟩))
      · exact Or.inr (Or.inr (Or.inr ⟨i, hi, Or.inl h1⟩))
    · rintro (h1 | h1 | h1 | ⟨i, hi, h1 | h1 | h1⟩)
      · exact Or.inr (Or.inr (Or.inl h1))
      · exact Or.inl h1
      · exact Or.inr (Or.inl h1)
      · exact Or.inr (Or.inr (Or.inr ⟨i, hi, Or.inr (Or.inr h1)⟩))
      · exact Or.inr (Or.inr (Or.inr ⟨i, hi, Or.inl h1⟩))
      · exact Or.inr (Or.inr (Or.inr ⟨i, hi, Or.inr (Or.inl h1)⟩))
  | true =>
    simp [base_loss_keys]
    constructor
    · rintro (h1 | h1 | h1 | h1 | ⟨i, hi, h1 | h1 | h1⟩)
      · exact Or.inr (Or.inl h1)
      · exact Or.inr (Or.inr (Or.inl h1))
      · exact Or.inl h1
      · exact Or.inr (Or.inr (Or.inr (Or.inl h1)))
      · exact Or.inr (Or.inr (Or.inr (Or.inr ⟨i, hi, Or.inr (Or.inl h1)⟩)))
      · exact Or.inr (Or.inr (Or.inr (Or.inr ⟨i, hi, Or.inr (Or.inr h1)⟩)))
      · exact Or.inr (Or.inr (Or.inr (Or.inr ⟨i, hi, Or.inl h1⟩)))
    · rintro (h1 | h1 | h1 | h1 | ⟨i, hi, h1 | h1 | h1⟩)
      · exact Or.inr (Or.inr (Or.inl h1))
      · exact Or.inl h1
      · exact Or.inr (Or.inl h1)
      · exact Or.inr (Or.inr (Or.inr (Or.inl h1)))
      · exact Or.inr (Or.inr (Or.inr (Or.inr ⟨i, hi, Or.inr (Or.inr h1)⟩)))
      · exact Or.inr (Or.inr (Or.inr (Or.inr ⟨i, hi, Or.inl h1⟩)))
      · exact Or.inr (Or.inr (Or.inr (Or.inr ⟨i, hi, Or.inr (Or.inl h1)⟩)))

/-- Witness for C7 with temperature configured, contrastive requested, one
auxiliary layer. -/
theorem oneformer_loss_forward_keys_witness :
    ((true : Bool) = true → (true : Bool) = true) ∧
    ∃ l, loss_forward_keys true true 1 = some l ∧
      ∀ s, s ∈ l ↔ (s = "loss_cross_entropy" ∨ s = "loss_mask" ∨ s = "loss_dice" ∨
        ((true : Bool) = true ∧ s = "loss_contrastive") ∨
        ∃ i, i < 1 ∧ (s = "loss_cross_entropy" ++ "_" ++ toString i ∨
          s = "loss_mask" ++ "_" ++ toString i ∨
          s = "loss_dice" ++ "_" ++ toString i)) :=
  ⟨by decide, oneformer_loss_forward_keys true true 1 (by decide)⟩

/-- `torch.topk(values, k).indices` modelled with a stable sort: the indices
of `vals` ordered by decreasing value (ties keep the lower index first),
truncated to the first `k`. -/
def topkIdx (vals : List ℚ) (k : ℕ) : List ℕ :=
  (List.insertionSort (fun i j => vals.getD j 0 ≤ vals.getD i 0)
    (List.range vals.length)).take k

/-- `calculate_uncertainty` (lines 219-233): minus the absolute logit. -/
def calculate_uncertainty (x : ℚ) : ℚ :=
  -|x|

/-- `get_uncertain_point_coords_with_randomness` (lines 259-310) for one mask
(rows are processed independently; the `shift` of lines 297-299 only
flattens the per-row topk indices): point-sample the coarse logits at
`int(P*oversample)` uniform candidates (passed as the parameter
`candidates`, since the source draws them with `torch.rand`), take the
`int(importance*P)` candidates of highest uncertainty `-(abs logit)`, and
fill the remaining `P - int(importance*P)` slots with fresh uniform draws
(the parameter `fresh`). -/
def get_uncertain_point_coords_with_randomness
    (coarse_logits : ℕ → ℕ → ℚ) (Hm Wm : ℕ) (num_points : ℕ)
    (oversample importance_sample : ℚ)
    (candidates fresh : List (ℚ × ℚ)) : List (ℚ × ℚ) :=
  let point_logits := candidates.map
    (fun c => pointSampleAt Hm Wm coarse_logits c.1 c.2)
  let point_uncertainties := point_logits.map calculate_uncertainty
  let num_uncertain_points := Int.toNat ⌊importance_sample * (num_points : ℚ)⌋
  let num_random_points := num_points - num_uncertain_points
  let idx := topkIdx point_uncertainties num_uncertain_points
  let selected := idx.map (fun i => candidates.getD i (0, 0))
  if 0 < num_random_points then selected ++ fresh else selected

/-- C6: for every mask, budget `P > 0`, oversample factor `≥ 1` and
importance fraction in `[0,1]`, the uncertainty sampler returns exactly `P`
points: the first `int(importance*P)` are candidates of maximal uncertainty
`-(abs point-sampled logit)` among the `int(P*oversample)` uniform
candidates (every selected candidate is at least as uncertain as every
unselected one), and the remaining `P - int(importance*P)` points are the
fresh uniform draws; in particular the budget holds at the boundary values
`0` and `1` of the importance fraction. -/
theorem oneformer_uncertain_point_budget
    (coarse_logits : ℕ → ℕ → ℚ) (Hm Wm num_points : ℕ)
    (oversample importance_sample : ℚ) (candidates fresh : List (ℚ × ℚ))
    (k : ℕ) (out : List (ℚ × ℚ)) (U : List ℚ)
    (hP : 0 < num_points) (hr : 1 ≤ oversample)
    (hi0 : 0 ≤ importance_sample) (hi1 : importance_sample ≤ 1)
    (hcand : candidates.length = Int.toNat ⌊(num_points : ℚ) * oversample⌋)
    (hfresh : fresh.length =
      num_points - Int.toNat ⌊importance_sample * (num_points : ℚ)⌋)
    (hk : k = Int.toNat ⌊importance_sample * (num_points : ℚ)⌋)
    (ho : out = get_uncertain_point_coords_with_randomness coarse_logits Hm Wm
      num_points oversample importance_sample candidates fresh)
    (hU : U = (candidates.map (fun c =>
      pointSampleAt Hm Wm coarse_logits c.1 c.2)).map calculate_uncertainty) :
    out.length = num_points ∧ out.drop k = fresh ∧
    ∃ sel : List ℕ, sel.Nodup ∧ sel.length = k ∧
      (∀ i ∈ sel, i < candidates.length) ∧
      out.take k = sel.map (fun i => candidates.getD i (0, 0)) ∧
      (∀ i ∈ sel, ∀ j, j < candidates.length → j ∉ sel →
        U.getD j 0 ≤ U.getD i 0) := by
  have hkP : k ≤ num_points := by
    rw [hk]
    have h1 : ⌊importance_sample * (num_points : ℚ)⌋ ≤ (num_points : ℤ) := by
      have h2 : importance_sample * (num_points : ℚ) ≤ (num_points : ℚ) := by
        nlinarith [Nat.cast_nonneg (α := ℚ) num_points]
      calc ⌊importance_sample * (num_points : ℚ)⌋ ≤ ⌊((num_points : ℕ) : ℚ)⌋ :=
            Int.floor_mono h2
        _ = (num_points : ℤ) := Int.floor_natCast num_points
    exact Int.toNat_le.2 h1
  have hPcand : num_points ≤ candidates.length := by
    rw [hcand]
    have h1 : ((num_points : ℕ) : ℤ) ≤ ⌊(num_points : ℚ) * oversample⌋ := by
      rw [Int.le_floor]
      push_cast
      nlinarith [Nat.cast_nonneg (α := ℚ) num_points]
    have h2 := Int.toNat_le_toNat h1
    simpa using h2
  have hUlen : U.length = candidates.length := by
    rw [hU, List.length_map, List.length_map]
  have hkc : k ≤ candidates.length := le_trans hkP hPcand
  haveI hTot : IsTotal ℕ (fun i j => U.getD j 0 ≤ U.getD i 0) :=
    ⟨fun a b => le_total _ _⟩
  haveI hTrans : IsTrans ℕ (fun i j => U.getD j 0 ≤ U.getD i 0) :=
    ⟨fun a b c hab hbc => le_trans hbc hab⟩
  have hperm := List.perm_insertionSort (fun i j => U.getD j 0 ≤ U.getD i 0)
    (List.range U.length)
  have hsorted := List.sorted_insertionSort (fun i j => U.getD j 0 ≤ U.getD i 0)
    (List.range U.length)
  have hslen : (List.insertionSort (fun i j => U.getD j 0 ≤ U.getD i 0)
      (List.range U.length)).length = U.length :=
    hperm.length_eq.trans (List.length_range _)
  have hsnd : (List.insertionSort (fun i j => U.getD j 0 ≤ U.getD i 0)
      (List.range U.length)).Nodup :=
    hperm.nodup_iff.2 (List.nodup_range _)
  have htopk : topkIdx U k = (List.insertionSort (fun i j => U.getD j 0 ≤ U.getD i 0)
      (List.range U.length)).take k := rfl
  have hsellen : (topkIdx U k).length = k := by
    rw [htopk, List.length_take, hslen, hUlen]
    omega
  have hout : out = (topkIdx U k).map (fun i => candidates.getD i (0, 0)) ++ fresh := by
    rw [ho]
    unfold get_uncertain_point_coords_with_randomness
    dsimp only
    rw [← hk, ← hU]
    by_cases hnr : 0 < num_points - k
    · rw [if_pos hnr]
    · rw [if_neg hnr]
      have hf0 : fresh = [] := by
        apply List.length_eq_zero.1
        omega
      rw [hf0, List.append_nil]
  have hmaplen : ((topkIdx U k).map (fun i => candidates.getD i (0, 0))).length = k := by
    rw [List.length_map, hsellen]
  refine ⟨?_, ?_, topkIdx U k, ?_, hsellen, ?_, ?_, ?_⟩
  · rw [hout, List.length_append, hmaplen, hfresh]
    omega
  · rw [hout, List.drop_left' hmaplen]
  · rw [htopk]
    exact ((List.take_sublist _ _).nodup hsnd)
  · intro i hi
    rw [htopk] at hi
    have h1 : i ∈ List.insertionSort (fun i j => U.getD j 0 ≤ U.getD i 0)
        (List.range U.length) := List.take_subset _ _ hi
    have h2 : i ∈ List.range U.length := hperm.mem_iff.1 h1
    rw [List.mem_range, hUlen] at h2
    exact h2
  · rw [hout, List.take_left' hmaplen]
  · intro i hi j hjlt hjn
    have hj1 : j ∈ List.range U.length := List.mem_range.2 (by rw [hUlen]; exact hjlt)
    have hj2 : j ∈ List.insertionSort (fun i j => U.getD j 0 ≤ U.getD i 0)
        (List.range U.length) := hperm.mem_iff.2 hj1
    have hsplit := List.take_append_drop k (List.insertionSort
      (fun i j => U.getD j 0 ≤ U.getD i 0) (List.range U.length))
    rw [← hsplit, List.mem_append] at hj2
    have hjdrop : j ∈ (List.insertionSort (fun i j => U.getD j 0 ≤ U.getD i 0)
        (List.range U.length)).drop k := by
      rcases hj2 with hj2 | hj2
      · exact absurd (htopk ▸ hj2) hjn
      · exact hj2
    have hsorted2 := hsorted
    rw [← hsplit, List.Sorted, List.pairwise_append] at hsorted2
    exact hsorted2.2.2 i (by rw [htopk] at hi; exact hi) j hjdrop

/-- Witness for C6 with budget 2, oversampling 2, importance fraction 1/2. -/
theorem oneformer_uncertain_point_budget_witness :
    (0 < 2 ∧ (1:ℚ) ≤ 2 ∧ (0:ℚ) ≤ 1/2 ∧ (1:ℚ)/2 ≤ 1 ∧
      ([((0:ℚ), (0:ℚ)), (0, 0), (0, 0), (0, 0)] : List (ℚ × ℚ)).length =
        Int.toNat ⌊((2:ℕ) : ℚ) * 2⌋ ∧
      ([((0:ℚ), (0:ℚ))] : List (ℚ × ℚ)).length =
        2 - Int.toNat ⌊(1/2 : ℚ) * ((2:ℕ) : ℚ)⌋) ∧
    (get_uncertain_point_coords_with_randomness (fun _ _ => 0) 1 1 2 2 (1/2)
      [((0:ℚ), (0:ℚ)), (0, 0), (0, 0), (0, 0)] [((0:ℚ), (0:ℚ))]).length = 2 :=
  ⟨⟨by norm_num, by norm_num, by norm_num, by norm_num,
      by norm_num <;> rfl, by norm_num⟩,
    (oneformer_uncertain_point_budget (fun _ _ => 0) 1 1 2 2 (1/2)
      [((0:ℚ), (0:ℚ)), (0, 0), (0, 0), (0, 0)] [((0:ℚ), (0:ℚ))] _ _ _
      (by norm_num) (by norm_num) (by norm_num) (by norm_num)
      (by norm_num <;> rfl) (by norm_num) rfl rfl rfl).1⟩

/-- The sigmoid is positive. -/
theorem sigmoid_pos (x : ℝ) : 0 < sigmoid x := by
  unfold sigmoid
  positivity

/-- The sigmoid is below one. -/
theorem sigmoid_lt_one (x : ℝ) : sigmoid x < 1 := by
  unfold sigmoid
  rw [div_lt_one (by positivity)]
  nlinarith [Real.exp_pos (-x)]

/-- Binary lists have nonnegative entries and sums. -/
theorem binary_sum_nonneg {l : List ℝ} (h : ∀ y ∈ l, y = 0 ∨ y = 1) : 0 ≤ l.sum := by
  apply List.sum_nonneg
  intro y hy
  rcases h y hy with rfl | rfl <;> norm_num

/-- For probabilities against binary labels, twice the dot product is at most
the sum of the sums. -/
theorem two_dotList_le (a : List ℝ) (ha : ∀ x ∈ a, 0 ≤ x ∧ x ≤ 1) :
    ∀ b : List ℝ, (∀ y ∈ b, y = 0 ∨ y = 1) →
    2 * dotList a b ≤ a.sum + b.sum := by
  induction a with
  | nil =>
    intro b hb
    rw [dotList_nil_left]
    have := binary_sum_nonneg hb
    simp only [List.sum_nil]
    linarith
  | cons x xs ih =>
    intro b hb
    cases b with
    | nil =>
      rw [dotList_nil_right]
      have h1 : 0 ≤ x := (ha x (List.mem_cons_self x xs)).1
      have h2 : 0 ≤ xs.sum := List.sum_nonneg
        (fun y hy => (ha y (List.mem_cons_of_mem x hy)).1)
      simp only [List.sum_cons, List.sum_nil]
      linarith
    | cons y ys =>
      rw [dotList_cons]
      have hxs := ih (fun v hv => ha v (List.mem_cons_of_mem x hv)) ys
        (fun v hv => hb v (List.mem_cons_of_mem y hv))
      have hx := ha x (List.mem_cons_self x xs)
      simp only [List.sum_cons]
      rcases hb y (List.mem_cons_self y ys) with rfl | rfl
      · nlinarith [hx.1, hx.2]
      · nlinarith [hx.1, hx.2]

/-- Nonnegativity of `dotList` of nonnegative lists. -/
theorem dotList_nonneg {a b : List ℝ} (ha : ∀ x ∈ a, 0 ≤ x) (hb : ∀ y ∈ b, 0 ≤ y) :
    0 ≤ dotList a b := by
  apply List.sum_nonneg
  intro v hv
  obtain ⟨p, hp, rfl⟩ := List.mem_map.1 hv
  have h1 := List.of_mem_zip hp
  exact mul_nonneg (ha _ h1.1) (hb _ h1.2)

/-- One row of the dice loss lies in `[0, 1]` when the labels are binary. -/
theorem dice_row_bounds (irow lrow : List ℝ) (hbin : ∀ y ∈ lrow, y = 0 ∨ y = 1) :
    0 ≤ 1 - (2 * dotList (irow.map sigmoid) lrow + 1) /
      ((irow.map sigmoid).sum + lrow.sum + 1) ∧
    1 - (2 * dotList (irow.map sigmoid) lrow + 1) /
      ((irow.map sigmoid).sum + lrow.sum + 1) ≤ 1 := by
  have hprob : ∀ x ∈ irow.map sigmoid, 0 ≤ x ∧ x ≤ 1 := by
    intro x hx
    obtain ⟨v, _, rfl⟩ := List.mem_map.1 hx
    exact ⟨le_of_lt (sigmoid_pos v), le_of_lt (sigmoid_lt_one v)⟩
  have hpsum : 0 ≤ (irow.map sigmoid).sum :=
    List.sum_nonneg (fun x hx => (hprob x hx).1)
  have hlsum : 0 ≤ lrow.sum := binary_sum_nonneg hbin
  have hden : 0 < (irow.map sigmoid).sum + lrow.sum + 1 := by linarith
  have hdot0 : 0 ≤ dotList (irow.map sigmoid) lrow :=
    dotList_nonneg (fun x hx => (hprob x hx).1)
      (fun y hy => by rcases hbin y hy with rfl | rfl <;> norm_num)
  have hdot2 := two_dotList_le (irow.map sigmoid) hprob lrow hbin
  constructor
  · have hratio : (2 * dotList (irow.map sigmoid) lrow + 1) /
        ((irow.map sigmoid).sum + lrow.sum + 1) ≤ 1 := by
      rw [div_le_one hden]
      linarith
    linarith
  · have hratio : 0 < (2 * dotList (irow.map sigmoid) lrow + 1) /
        ((irow.map sigmoid).sum + lrow.sum + 1) :=
      div_pos (by linarith) hden
    linarith

/-- Sums of lists with entries at most one are bounded by the length. -/
theorem list_sum_le_length {l : List ℝ} (h : ∀ x ∈ l, x ≤ 1) :
    l.sum ≤ (l.length : ℝ) := by
  induction l with
  | nil => simp
  | cons x xs ih =>
    simp only [List.sum_cons, List.length_cons]
    push_cast
    have h1 := ih (fun y hy => h y (List.mem_cons_of_mem x hy))
    have hx := h x (List.mem_cons_self x xs)
    linarith

/-- `dice_loss` normalized by the true mask count lies in `[0, 1]`. -/
theorem dice_loss_bounds_aux (inputs labels : List (List ℝ))
    (hB : inputs.length = labels.length)
    (hbin : ∀ row ∈ labels, ∀ y ∈ row, y = 0 ∨ y = 1) :
    0 ≤ dice_loss inputs labels (inputs.length : ℝ) ∧
      dice_loss inputs labels (inputs.length : ℝ) ≤ 1 := by
  unfold dice_loss
  have hterm : ∀ v ∈ (inputs.zip labels).map (fun p =>
      let probs := p.1.map sigmoid
      1 - (2 * dotList probs p.2 + 1) / (probs.sum + p.2.sum + 1)),
      0 ≤ v ∧ v ≤ 1 := by
    intro v hv
    obtain ⟨⟨r1, r2⟩, hp, rfl⟩ := List.mem_map.1 hv
    exact dice_row_bounds r1 r2 (hbin r2 (List.of_mem_zip hp).2)
  have hsum0 : 0 ≤ ((inputs.zip labels).map (fun p =>
      let probs := p.1.map sigmoid
      1 - (2 * dotList probs p.2 + 1) / (probs.sum + p.2.sum + 1))).sum :=
    List.sum_nonneg (fun v hv => (hterm v hv).1)
  have hlen : ((inputs.zip labels).map (fun p =>
      let probs := p.1.map sigmoid
      1 - (2 * dotList probs p.2 + 1) / (probs.sum + p.2.sum + 1))).length =
      inputs.length := by
    rw [List.length_map, List.length_zip, hB, min_self]
  have hsuml := list_sum_le_length (fun x hx => (hterm x hx).2)
  rw [hlen] at hsuml
  constructor
  · exact div_nonneg hsum0 (Nat.cast_nonneg _)
  · rcases Nat.eq_zero_or_pos inputs.length with hz | hpos
    · rw [List.length_eq_zero] at hz
      subst hz
      simp
    · rw [div_le_one (by exact_mod_cast hpos)]
      exact hsuml

/-- The sigmoid tends to one at plus infinity. -/
theorem sigmoid_tendsto_one :
    Filter.Tendsto sigmoid Filter.atTop (nhds 1) := by
  have h1 : Filter.Tendsto (fun s : ℝ => Real.exp (-s)) Filter.atTop (nhds 0) :=
    Real.tendsto_exp_atBot.comp Filter.tendsto_neg_atTop_atBot
  have h2 : Filter.Tendsto (fun s : ℝ => 1 + Real.exp (-s)) Filter.atTop (nhds 1) := by
    have := Filter.Tendsto.const_add (1:ℝ) h1
    simpa using this
  have h3 : Filter.Tendsto (fun s : ℝ => 1 / (1 + Real.exp (-s))) Filter.atTop
      (nhds (1 / 1)) :=
    Filter.Tendsto.div tendsto_const_nhds h2 one_ne_zero
  have h4 : (1:ℝ) / 1 = 1 := by norm_num
  rw [h4] at h3
  exact h3

/-- The reflected sigmoid tends to zero at plus infinity. -/
theorem sigmoid_neg_tendsto_zero :
    Filter.Tendsto (fun s : ℝ => sigmoid (-s)) Filter.atTop (nhds 0) := by
  have h1 : Filter.Tendsto (fun s : ℝ => 1 + Real.exp s) Filter.atTop Filter.atTop :=
    Filter.tendsto_atTop_add_const_left _ 1 Real.tendsto_exp_atTop
  have h2 := h1.inv_tendsto_atTop
  have h3 : (fun s : ℝ => sigmoid (-s)) = fun s : ℝ => (1 + Real.exp s)⁻¹ := by
    funext s
    unfold sigmoid
    rw [neg_neg, one_div]
  rw [h3]
  exact h2

/-- On a binary mask, the dot product of the sigmoided scaled logits with the
mask is `sigmoid s` times the mask sum. -/
theorem scaled_dot (s : ℝ) :
    ∀ x : List ℝ, (∀ a ∈ x, a = 0 ∨ a = 1) →
    dotList ((x.map (fun a => s * (2 * a - 1))).map sigmoid) x =
      sigmoid s * x.sum := by
  intro x
  induction x with
  | nil => intro _; simp [dotList_nil_left]
  | cons a xs ih =>
    intro hb
    have hxs := ih (fun y hy => hb y (List.mem_cons_of_mem a hy))
    simp only [List.map_cons, dotList_cons, List.sum_cons]
    rw [hxs]
    rcases hb a (List.mem_cons_self a xs) with rfl | rfl
    · norm_num
    · norm_num
      ring

/-- On a binary mask, the sum of the sigmoided scaled logits splits into the
on-mask and off-mask contributions. -/
theorem scaled_sum (s : ℝ) :
    ∀ x : List ℝ, (∀ a ∈ x, a = 0 ∨ a = 1) →
    ((x.map (fun a => s * (2 * a - 1))).map sigmoid).sum =
      sigmoid s * x.sum + sigmoid (-s) * ((x.length : ℝ) - x.sum) := by
  intro x
  induction x with
  | nil => intro _; simp
  | cons a xs ih =>
    intro hb
    have hxs := ih (fun y hy => hb y (List.mem_cons_of_mem a hy))
    simp only [List.map_cons, List.sum_cons, List.length_cons]
    rw [hxs]
    push_cast
    rcases hb a (List.mem_cons_self a xs) with rfl | rfl
    · norm_num
      ring
    · norm_num
      ring

/-- Closed form of the dice loss of one perfectly matching scaled prediction
against its binary mask. -/
theorem dice_scaled_eq (s : ℝ) (x : List ℝ) (hb : ∀ a ∈ x, a = 0 ∨ a = 1) :
    dice_loss [x.map (fun a => s * (2 * a - 1))] [x] 1 =
      1 - (2 * (sigmoid s * x.sum) + 1) /
        ((sigmoid s * x.sum + sigmoid (-s) * ((x.length : ℝ) - x.sum)) +
          x.sum + 1) := by
  unfold dice_loss
  simp only [List.zip_cons_cons, List.zip_nil_right, List.map_cons, List.map_nil,
    List.sum_cons, List.sum_nil, add_zero, div_one]
  rw [scaled_dot s x hb, scaled_sum s x hb]

/-- The dice loss of a perfectly matching scaled prediction tends to zero as
the logit scale grows. -/
theorem dice_scaled_tendsto_zero (x : List ℝ) (hb : ∀ a ∈ x, a = 0 ∨ a = 1) :
    Filter.Tendsto (fun s : ℝ => dice_loss [x.map (fun a => s * (2 * a - 1))] [x] 1)
      Filter.atTop (nhds 0) := by
  have hk0 : 0 ≤ x.sum := binary_sum_nonneg hb
  have h1 : Filter.Tendsto (fun s : ℝ => sigmoid s * x.sum) Filter.atTop
      (nhds (1 * x.sum)) := sigmoid_tendsto_one.mul_const _
  have h2 : Filter.Tendsto (fun s : ℝ => sigmoid (-s) * ((x.length : ℝ) - x.sum))
      Filter.atTop (nhds (0 * ((x.length : ℝ) - x.sum))) :=
    sigmoid_neg_tendsto_zero.mul_const _
  have hnum : Filter.Tendsto (fun s : ℝ => 2 * (sigmoid s * x.sum) + 1)
      Filter.atTop (nhds (2 * (1 * x.sum) + 1)) :=
    (h1.const_mul 2).add_const 1
  have hden : Filter.Tendsto (fun s : ℝ =>
      (sigmoid s * x.sum + sigmoid (-s) * ((x.length : ℝ) - x.sum)) + x.sum + 1)
      Filter.atTop
      (nhds ((1 * x.sum + 0 * ((x.length : ℝ) - x.sum)) + x.sum + 1)) :=
    ((h1.add h2).add_const _).add_const 1
  have hne : ((1 * x.sum + 0 * ((x.length : ℝ) - x.sum)) + x.sum + 1) ≠ 0 := by
    have : (0:ℝ) < (1 * x.sum + 0 * ((x.length : ℝ) - x.sum)) + x.sum + 1 := by
      nlinarith
    exact ne_of_gt this
  have hdiv := hnum.div hden hne
  have hfull := hdiv.const_sub 1
  have hval : (1:ℝ) - (2 * (1 * x.sum) + 1) /
      ((1 * x.sum + 0 * ((x.length : ℝ) - x.sum)) + x.sum + 1) = 0 := by
    rw [show (2 * (1 * x.sum) + 1 : ℝ) =
        (1 * x.sum + 0 * ((x.length : ℝ) - x.sum)) + x.sum + 1 from by ring,
      div_self hne, sub_self]
  rw [hval] at hfull
  exact hfull.congr (fun s => (dice_scaled_eq s x hb).symm)

/-- Counterexample for C8: `dice_loss` takes its normalizer as an argument,
and the claim does not constrain it; with three strongly mismatched masks
and `num_masks = 1` the value exceeds `1`. -/
theorem oneformer_dice_loss_counterexample :
    1 < dice_loss [[(1:ℝ)], [1], [1]] [[0], [0], [0]] 1 := by
  unfold dice_loss dotList
  norm_num
  have hexp : Real.exp (-1) < 1 := by
    rw [Real.exp_lt_one_iff]
    norm_num
  have h1 : (1:ℝ)/2 < sigmoid 1 := by
    unfold sigmoid
    rw [lt_div_iff₀ (by positivity)]
    nlinarith [Real.exp_pos (-1:ℝ)]
  have h2 : (0:ℝ) < sigmoid 1 + 1 := by linarith [sigmoid_pos 1]
  have h3 : (sigmoid 1 + 1)⁻¹ * (sigmoid 1 + 1) = 1 := inv_mul_cancel₀ (ne_of_gt h2)
  nlinarith [h1, h2, h3]

/-- C8 (amended): when `num_masks` equals the number of masks, `dice_loss`
of any logit inputs against binary labels lies in `[0, 1]`; and for any
binary mask `x`, the dice loss of the perfectly matching prediction whose
logits are `s` on the mask and `-s` off it tends to `0` as `s → ∞` (the
sigmoid never reaches `0` or `1` exactly, so "approximately 0" is realized
in the limit). -/
theorem oneformer_dice_loss_bounds :
    (∀ inputs labels : List (List ℝ), inputs.length = labels.length →
      (∀ row ∈ labels, ∀ y ∈ row, y = 0 ∨ y = 1) →
      0 ≤ dice_loss inputs labels (inputs.length : ℝ) ∧
        dice_loss inputs labels (inputs.length : ℝ) ≤ 1) ∧
    (∀ x : List ℝ, (∀ a ∈ x, a = 0 ∨ a = 1) → (∃ a ∈ x, a = 1) →
      Filter.Tendsto (fun s : ℝ =>
        dice_loss [x.map (fun a => s * (2 * a - 1))] [x] 1)
        Filter.atTop (nhds 0)) :=
  ⟨fun inputs labels hB hbin => dice_loss_bounds_aux inputs labels hB hbin,
    fun x hb _ => dice_scaled_tendsto_zero x hb⟩

/-- Witness for (amended) C8 at a concrete one-mask instance. -/
theorem oneformer_dice_loss_bounds_witness :
    (([[(0:ℝ)]] : List (List ℝ)).length = ([[(1:ℝ)]] : List (List ℝ)).length ∧
      (∀ row ∈ ([[(1:ℝ)]] : List (List ℝ)), ∀ y ∈ row, y = 0 ∨ y = 1)) ∧
    (0 ≤ dice_loss [[(0:ℝ)]] [[(1:ℝ)]] (([[(0:ℝ)]] : List (List ℝ)).length : ℝ) ∧
      dice_loss [[(0:ℝ)]] [[(1:ℝ)]] (([[(0:ℝ)]] : List (List ℝ)).length : ℝ) ≤ 1) :=
  ⟨⟨rfl, by norm_num⟩,
    oneformer_dice_loss_bounds.1 [[(0:ℝ)]] [[(1:ℝ)]] rfl (by norm_num)⟩
